import Mathlib

/-!
Verification of the asset-optimization pipeline of the `personalwebsite`
repository (`src/js/responsive.js`, canonical bucketed pipeline, and
`optimizer.js`, the superseded flat pipeline).

Each section embeds one component of the source, translated function by
function; theorems about the spec's claims follow at the end of the file.

Conventions used throughout the embedding:
* JavaScript numbers that hold pixel widths are embedded as `Nat`
  (the source only ever produces nonnegative integers for them);
  `Math.round(d * 0.25)` on an integer `d` is the exact rational
  `d/4` rounded half away from zero, embedded as `jsRound d 4`.
* Text content is embedded as `List Char`; `String.prototype.replaceAll`
  and the regex scans are embedded as explicit left-to-right scanners.
* `try`/`catch` around one asset is embedded by letting the per-asset
  processing function return an `Option`.
-/

set_option maxHeartbeats 1000000

namespace SiteOptimizer

/-! ### Size plan calculator (`responsive.js`, `ImageSizeCalculator`, lines 160-207) -/

/-- `CONFIG.SIZE_INCREMENT` -/
def SIZE_INCREMENT : Nat := 128

/-- `CONFIG.MAX_INCREMENT_SIZE` -/
def MAX_INCREMENT_SIZE : Nat := 1024

/-- `CONFIG.MIN_QUARTER_INCREMENT` -/
def MIN_QUARTER_INCREMENT : Nat := 128

/-- The `type` field of a size-plan entry. -/
inductive SizeType where
  | increment
  | intermediate
  | original
deriving DecidableEq, Repr

/-- One entry of the size plan: `{ width, folder, type }` as pushed by
`ImageSizeCalculator`. -/
structure SizeEntry where
  width : Nat
  folder : String
  type : SizeType
deriving DecidableEq, Repr

/-- `Math.round(num / den)` for nonnegative integer `num` and positive `den`:
JavaScript rounds half away from zero, which for nonnegative arguments is
`⌊num/den + 1/2⌋ = (2*num + den) / (2*den)`.  The source only calls this on
`diff * 0.25`, `diff * 0.5` and `diff * 0.75`, all exact in double precision
for any realistic pixel width. -/
def jsRound (num den : Nat) : Nat := (2 * num + den) / (2 * den)

namespace ImageSizeCalculator

/-- Builds the entry `{ width: size, folder: `${size}`, type: 'increment' }`. -/
def mkIncrement (s : Nat) : SizeEntry := ⟨s, toString s, .increment⟩

/-- `addIncrementalSizes`: the loop
`for (size = 128; size <= 1024 && size <= w; size += 128) push(...)`.
`List.range' 128 8 128 = [128, 256, ..., 1024]` enumerates the candidates the
loop can ever reach; `takeWhile` stops at the first candidate exceeding `w`,
exactly like the loop condition. -/
def addIncrementalSizes (w : Nat) : List SizeEntry :=
  ((List.range' 128 8 128).takeWhile (fun s => decide (s ≤ w))).map mkIncrement

/-- `addIntermediateSizes` (lines 181-198); `diff = w - 1024`,
`quarter/half/threeQuarter` are inlined as `jsRound` applications. -/
def addIntermediateSizes (w : Nat) : List SizeEntry :=
  if w ≤ MAX_INCREMENT_SIZE then []
  else if MIN_QUARTER_INCREMENT ≤ jsRound (w - MAX_INCREMENT_SIZE) 4 then
    [⟨MAX_INCREMENT_SIZE + jsRound (w - MAX_INCREMENT_SIZE) 4, "25", .intermediate⟩,
     ⟨MAX_INCREMENT_SIZE + jsRound (w - MAX_INCREMENT_SIZE) 2, "50", .intermediate⟩,
     ⟨MAX_INCREMENT_SIZE + jsRound (3 * (w - MAX_INCREMENT_SIZE)) 4, "75", .intermediate⟩]
  else
    [⟨MAX_INCREMENT_SIZE + jsRound (w - MAX_INCREMENT_SIZE) 2, "50", .intermediate⟩]

/-- `addOriginalSize` (lines 200-206). -/
def addOriginalSize (w : Nat) : List SizeEntry :=
  [⟨w, "original", .original⟩]

/-- `ImageSizeCalculator.calculate` (lines 161-169). -/
def calculate (w : Nat) : List SizeEntry :=
  addIncrementalSizes w ++ addIntermediateSizes w ++ addOriginalSize w

/-- Modelled from the spec's words (reference definition for the refinement
claim about the size plan): increment phase emits every multiple of 128 from
128 up to `min(1024, originalWidth)`; intermediate phase as per §4.1 step 2;
original phase appends the original entry. -/
def specPlan (w : Nat) : List SizeEntry :=
  ((List.range (min MAX_INCREMENT_SIZE w / SIZE_INCREMENT)).map
      (fun i => SIZE_INCREMENT * (i + 1))).map mkIncrement
  ++ (if MAX_INCREMENT_SIZE < w then
        if MIN_QUARTER_INCREMENT ≤ jsRound (w - MAX_INCREMENT_SIZE) 4 then
          [⟨MAX_INCREMENT_SIZE + jsRound (w - MAX_INCREMENT_SIZE) 4, "25", .intermediate⟩,
           ⟨MAX_INCREMENT_SIZE + jsRound (w - MAX_INCREMENT_SIZE) 2, "50", .intermediate⟩,
           ⟨MAX_INCREMENT_SIZE + jsRound (3 * (w - MAX_INCREMENT_SIZE)) 4, "75", .intermediate⟩]
        else
          [⟨MAX_INCREMENT_SIZE + jsRound (w - MAX_INCREMENT_SIZE) 2, "50", .intermediate⟩]
      else [])
  ++ [⟨w, "original", .original⟩]

end ImageSizeCalculator

/-! ### Per-asset processing order and fault isolation
(`responsive.js`, `ImageOptimizer`, lines 347-382; `FontOptimizer`, 506-548) -/

/-- Observable filesystem events of `ImageOptimizer.processImage`. -/
inductive PipelineEvent where
  | materialize (width : Nat)
  | deleteOriginal
  | rewriteReferences
deriving DecidableEq, Repr

namespace ImageOptimizer

/-- Event trace of `processImage` (lines 371-381): `generator.generate()`
materializes one variant per plan entry in order; on success the source then
runs `fs.unlinkSync(imagePath)` and only afterwards
`srcsetUpdater.updateAll(...)`.  A failure while materializing entry `k`
(`failAt = some k`) throws, so the remaining events never happen and the
exception propagates to the caller (`optimize`'s `catch`).  The superseded
`optimizer.js` pipeline (lines 205-226) produces the same event order. -/
def processImageTrace (plan : List Nat) (failAt : Option Nat) : List PipelineEvent :=
  match failAt with
  | some k => (plan.take k).map PipelineEvent.materialize
  | none => plan.map PipelineEvent.materialize
      ++ [PipelineEvent.deleteOriginal, PipelineEvent.rewriteReferences]

/-- The `optimize` loop (`responsive.js` lines 359-368, and analogously
523-531 for fonts): each asset is processed inside `try`/`catch`; a failing
asset (`process a = none`) contributes nothing to `processedFiles` and the
loop continues with the next asset. -/
def optimizePass {α β : Type} (process : α → Option (List β)) (assets : List α) :
    List β :=
  assets.foldl (fun acc a =>
    match process a with
    | some r => acc ++ r
    | none => acc) []

end ImageOptimizer

/-! ### HTML srcset rewriting (`responsive.js`, `HtmlSrcsetUpdater`, lines 266-345) -/

/-- JavaScript strings in this embedding: lists of characters. -/
abbrev Str := List Char

/-- `String.prototype.toLowerCase` restricted to the characters the pipeline
handles (case-insensitive regex matching via lowercasing both sides). -/
def lowerStr (s : Str) : Str := s.map Char.toLower

/-- `String.prototype.endsWith`. -/
def strEndsWith (s suf : Str) : Bool := suf.isSuffixOf s

/-- `${n}` — decimal rendering of a number. -/
def natStr (n : Nat) : Str := (Nat.repr n).data

/-- One attribute of an `<img>` tag: name and quoted value (the scanned value
never contains quote characters, mirroring the regexes' `[^"']*`). -/
structure Attr where
  name : Str
  value : Str
deriving DecidableEq, Repr

/-- An HTML file as the updater's regexes see it: `<img ...>` elements
interleaved with other text, which no pattern of the updater can touch. -/
inductive HtmlNode where
  | text (s : Str)
  | img (attrs : List Attr)
deriving DecidableEq, Repr

/-- A generated-variant record `{ path, width, folder, type }` as produced by
`ImageVariantGenerator.generate` (lines 226-234); the srcset updater consumes
`path`, `width` and `type`. -/
structure GenImg where
  path : Str
  width : Nat
  folder : Str
  type : SizeType
deriving DecidableEq, Repr

namespace HtmlSrcsetUpdater

/-- `generateSrcsetValues` (lines 308-317): one `"<relative-path> <width>w"`
entry per generated image — ALL of them, the `original`-kind one included —
joined with `", "`.  `rel` stands for
`path.relative(path.dirname(file), ·)` for the containing file. -/
def generateSrcsetValues (rel : Str → Str) (gis : List GenImg) : Str :=
  List.intercalate ", ".data
    (gis.map fun g => rel g.path ++ " ".data ++ natStr g.width ++ "w".data)

/-- Whether an attribute is matched by the `([^>]*?)src=["']([^"']*?)pat["']`
portion of `createPatterns`' regexes (flags `gi`, lines 319-324): any
attribute whose name ends in `src` — the lazy group puts no boundary before
the literal `src=` — and whose value ends with the pattern
(base name or base reference plus a legacy extension), case-insensitively. -/
def isMatchingSrc (pat : Str) (a : Attr) : Bool :=
  strEndsWith (lowerStr a.name) "src".data
    && strEndsWith (lowerStr a.value) (lowerStr pat)

/-- The `/\ssrcset\s*=/` test of line 336 — case-SENSITIVE (no `i` flag). -/
def hasSrcset (attrs : List Attr) : Bool :=
  attrs.any fun a => a.name == "srcset".data

/-- `match.replace(/\ssrcset\s*=\s*["'][^"']*["']/i, ` srcset="${v}"`)`
(line 337): the first attribute whose name is `srcset` up to case is
rewritten wholesale — lowercase name, new value. -/
def replaceFirstSrcset (v : Str) : List Attr → List Attr
  | [] => []
  | a :: as =>
    if lowerStr a.name == "srcset".data then ⟨"srcset".data, v⟩ :: as
    else a :: replaceFirstSrcset v as

/-- The else-branch replacement
`` `<img${before}src="${srcValue}" srcset="${srcsetValues}"${after}>` ``
(line 339): the first matching `src`-like attribute keeps its name, its value
becomes `srcVal`, and a `srcset` attribute is inserted immediately after it;
all surrounding attributes stay in place. -/
def injectSrcset (pat srcVal v : Str) : List Attr → List Attr
  | [] => []
  | a :: as =>
    if isMatchingSrc pat a then ⟨a.name, srcVal⟩ :: ⟨"srcset".data, v⟩ :: as
    else a :: injectSrcset pat srcVal v as

/-- The regex callback of `updateContentWithPattern` (lines 326-344) applied
to one matched `<img>` element. -/
def rewriteTag (pat srcVal v : Str) (attrs : List Attr) : List Attr :=
  if hasSrcset attrs then replaceFirstSrcset v attrs
  else injectSrcset pat srcVal v attrs

/-- One pattern applied to one element of the content (the global regex
rewrites every matching `<img>` of the file; non-matching elements and plain
text are untouched). -/
def applyPatternAttrs (pat srcVal v : Str) (attrs : List Attr) : List Attr :=
  if attrs.any (isMatchingSrc pat) then rewriteTag pat srcVal v attrs
  else attrs

/-- One `content.replace(regex, cb)` pass lifted to the node level. -/
def applyPattern (pat srcVal v : Str) : HtmlNode → HtmlNode
  | .text s => .text s
  | .img attrs => .img (applyPatternAttrs pat srcVal v attrs)

/-- `createPatterns` for the five legacy extensions (lines 291-299): for each
extension in order, the base-name pattern then the base-reference pattern. -/
def patternList (baseName baseRef : Str) : List Str :=
  ([".jpg", ".jpeg", ".png", ".webp", ".avif"].map String.data).flatMap
    fun ext => [baseName ++ ext, baseRef ++ ext]

/-- `srcValue` (lines 331-334): path of the `original`-kind variant relative
to the containing file (the source would crash if no such variant existed;
generated plans always contain exactly one). -/
def srcValue (rel : Str → Str) (gis : List GenImg) : Str :=
  match gis.find? (fun g => g.type == SizeType.original) with
  | some g => rel g.path
  | none => []

/-- `updateSingleFile` (lines 286-306): the nested loops over extensions and
patterns run one global replace each, sequentially, over the whole file. -/
def updateSingleFile (rel : Str → Str) (gis : List GenImg)
    (baseName baseRef : Str) (content : List HtmlNode) : List HtmlNode :=
  (patternList baseName baseRef).foldl
    (fun c pat =>
      c.map (applyPattern pat (srcValue rel gis) (generateSrcsetValues rel gis)))
    content

/-- Modelled from the spec's words (comparison definition for the claim about
the rewrite): the srcset value the spec prescribes, built from the
non-`original` variants only. -/
def specSrcsetValues (rel : Str → Str) (gis : List GenImg) : Str :=
  List.intercalate ", ".data
    ((gis.filter fun g => g.type != SizeType.original).map
      fun g => rel g.path ++ " ".data ++ natStr g.width ++ "w".data)

end HtmlSrcsetUpdater

/-! ### Font subsetting (`responsive.js`, `FontConverter.convertToWoff2`,
lines 384-446) -/

/-- A glyph record as the `filter` callback sees it: `unicode` is the glyph's
code point, with `0` standing for a glyph whose code point is zero or missing
(JavaScript's falsy test `!glyph.unicode` treats both alike); `name` is the
glyph name used for the rebuilt `cmap`. -/
structure Glyph where
  unicode : Nat
  name : Str
deriving DecidableEq, Repr

namespace FontConverter

/-- `allowedRanges` (lines 409-415). -/
def allowedRanges : List (Nat × Nat) :=
  [(0x0000, 0x007F), (0x0080, 0x00FF), (0x0100, 0x024F), (0x1E00, 0x1EFF),
   (0x0300, 0x036F)]

/-- `allowedSingles` (line 416). -/
def allowedSingles : List Nat := [0x20AB]

/-- The allow-list test
`allowedRanges.some(([s, e]) => s <= code && code <= e) || allowedSingles.includes(code)`
(lines 422-423) — this is also the predicate the claim describes. -/
def inAllowList (c : Nat) : Bool :=
  (allowedRanges.any fun r => decide (r.1 ≤ c) && decide (c ≤ r.2))
    || allowedSingles.contains c

/-- The `filter` callback passed to `font.find` (lines 418-425):
`if (!glyph.unicode) return false` drops a glyph whose code point is falsy
before the allow-list test runs. -/
def glyphFilter (g : Glyph) : Bool :=
  if g.unicode = 0 then false
  else inAllowList g.unicode

/-- `keptGlyphs = font.find({ filter })`: the retained glyph table
(assigned to `fontData.glyf`, line 429). -/
def keptGlyphs (glyf : List Glyph) : List Glyph := glyf.filter glyphFilter

/-- `fontData.cmap = keptGlyphs.reduce(...)` (lines 431-436): the rebuilt
code-point lookup, one entry per kept glyph with a truthy code point,
modelled as an association list in accumulation order. -/
def rebuildCmap (kept : List Glyph) : List (Nat × Str) :=
  kept.foldl (fun m g => if g.unicode ≠ 0 then m ++ [(g.unicode, g.name)] else m) []

end FontConverter

/-! ### Text reference substitution and CSS font-format rewriting
(`responsive.js`, `FileProcessor.updateFileReferences` lines 142-157 and
`CSSFontUpdater` lines 448-504) -/

/-- The single-quote character. -/
def sq : Char := Char.ofNat 39

/-- The two brace characters (written via code points). -/
def lbrace : Char := Char.ofNat 123

def rbrace : Char := Char.ofNat 125

/-- The `["']` character class. -/
def isQuote (c : Char) : Bool := c == '"' || c == sq

/-- `String.prototype.includes`: the pattern occurs at some position. -/
def includesStr : Str → Str → Bool
  | [], pat => pat.isEmpty
  | s@(_ :: rest), pat => pat.isPrefixOf s || includesStr rest pat

namespace FileProcessor

/-- `String.prototype.replaceAll` for a nonempty search string: the
left-to-right scan replacing every non-overlapping occurrence, leftmost
first, resuming after the inserted replacement.  (The pipeline only ever
calls it with nonempty portable references; the `old ≠ []` guard makes the
empty-pattern case a plain copy.) -/
def replaceAll (old new : Str) : Str → Str
  | [] => []
  | c :: rest =>
    if h : old ≠ [] ∧ old.isPrefixOf (c :: rest) then
      new ++ replaceAll old new ((c :: rest).drop old.length)
    else
      c :: replaceAll old new rest
termination_by s => s.length
decreasing_by
  · have : 0 < old.length := List.length_pos.mpr h.1
    simp only [List.length_drop, List.length_cons]
    omega
  · simp

/-- The canonical factorization behind `replaceAll`: the fragments of the
text between its leftmost non-overlapping occurrences of `old`.  The scan
mirrors `replaceAll` step for step. -/
def splitOnSub (old : Str) : Str → List Str
  | [] => [[]]
  | c :: rest =>
    if h : old ≠ [] ∧ old.isPrefixOf (c :: rest) then
      [] :: splitOnSub old ((c :: rest).drop old.length)
    else
      match splitOnSub old rest with
      | [] => [[c]]
      | p :: ps => (c :: p) :: ps
termination_by s => s.length
decreasing_by
  · have : 0 < old.length := List.length_pos.mpr h.1
    simp only [List.length_drop, List.length_cons]
    omega
  · simp

/-- `updateSingleFileReferences` (lines 150-157): replace all occurrences when
the file contains the old reference (content view; the write-back is a
filesystem effect). -/
def updateSingleFileReferences (content oldRef newRef : Str) : Str :=
  if includesStr content oldRef then replaceAll oldRef newRef content else content

end FileProcessor

namespace CSSFontUpdater

/-- Case-insensitive literal match (the literal is given lowercase); returns
the remainder after the literal. -/
def eatCi : Str → Str → Option Str
  | [], s => some s
  | _ :: _, [] => none
  | l :: ls, c :: cs => if c.toLower == l then eatCi ls cs else none

/-- `\s*`. -/
def eatSpaces (s : Str) : Str := s.dropWhile Char.isWhitespace

/-- One word alternative of `(?:truetype|opentype|ttf|otf)` followed by the
required closing `["']`; alternatives are tried left to right, and an
alternative whose following character is not a quote falls through to the
next, as the regex engine backtracks. -/
def eatWordAlt : List Str → Str → Option Str
  | [], _ => none
  | w :: ws, s =>
    match eatCi w s with
    | some rest =>
      match rest with
      | q :: rest' => if isQuote q then some rest' else eatWordAlt ws s
      | [] => eatWordAlt ws s
    | none => eatWordAlt ws s

/-- `format\s*\(\s*["'](?:truetype|opentype|ttf|otf)["']\s*\)` with the `i`
flag (line 485), matched at the head of the input; returns the remainder
after the match. -/
def matchFormatToken (s : Str) : Option Str :=
  match eatCi "format".data s with
  | none => none
  | some s1 =>
    match eatSpaces s1 with
    | '(' :: s3 =>
      match eatSpaces s3 with
      | q :: s5 =>
        if isQuote q then
          match eatWordAlt
              ["truetype".data, "opentype".data, "ttf".data, "otf".data] s5 with
          | some s6 =>
            match eatSpaces s6 with
            | ')' :: s8 => some s8
            | _ => none
          | none => none
        else none
      | [] => none
    | _ => none

/-- The replacement text `format("woff2")` of line 489. -/
def woff2Token : Str := "format(\"woff2\")".data

/-- First phase of `updateFontFormats` (lines 485-491): the global replace of
every legacy format token.  Fuel-based recursion; `replaceFormatTokens`
supplies the input length as fuel, which always suffices because every step
consumes at least one character. -/
def replaceFormatTokensAux : Nat → Str → Str
  | 0, s => s
  | _ + 1, [] => []
  | fuel + 1, c :: rest =>
    match matchFormatToken (c :: rest) with
    | some rest' => woff2Token ++ replaceFormatTokensAux fuel rest'
    | none => c :: replaceFormatTokensAux fuel rest

def replaceFormatTokens (s : Str) : Str := replaceFormatTokensAux s.length s

/-- Leading and trailing `\s*` around the regex's captured group. -/
def trimStr (s : Str) : Str :=
  ((s.dropWhile Char.isWhitespace).reverse.dropWhile Char.isWhitespace).reverse

/-- One candidate for the `['"]\s*([^'"]*)\s*['"]\)` tail of the font-face
regex: with the opening quote at index `j` of the region after `url\s*(`,
take the quote-free capture, and require a closing quote followed directly by
`)`. -/
def tryQuoteAt (t3 : Str) (j : Nat) : Option Str :=
  let afterQ := t3.drop (j + 1)
  let seg := afterQ.takeWhile (fun c => !(isQuote c))
  match afterQ.drop seg.length with
  | q2 :: u =>
    if isQuote q2 then
      match u with
      | ')' :: _ => some (trimStr seg)
      | _ => none
    else none
  | [] => none

/-- Opening-quote candidates: any quote inside the `[^)]*` region right after
`url\s*(`; the regex's greedy `[^)]*` makes the engine try them rightmost
first. -/
def quoteCandidates (pre : Str) : List Nat :=
  ((List.range pre.length).filter fun i => isQuote (pre.getD i ' ')).reverse

/-- `url\s*\([^)]*['"]\s*([^'"]*)\s*['"]\)` matched at the head of the given
text: the captured url path, if the pattern matches here. -/
def parseUrlAt (t : Str) : Option Str :=
  match eatCi "url".data t with
  | none => none
  | some t1 =>
    match eatSpaces t1 with
    | '(' :: t3 =>
      let pre := t3.takeWhile (fun c => c ≠ ')')
      (quoteCandidates pre).findSome? (tryQuoteAt t3)
    | _ => none

/-- The captured url path of a font-face block body: the greedy `[^}]*`
before `url` makes the engine try `url` occurrences rightmost first. -/
def findUrlPath (inside : Str) : Option Str :=
  ((List.range inside.length).reverse).findSome? fun i => parseUrlAt (inside.drop i)

/-- `@font-face\s*\{[^}]*url\s*\([^)]*['"]\s*([^'"]*)\s*['"]\)[^}]*\}` (line
493) matched at the head of the input: the matched block text (up to and
including the closing brace), the captured url path, and the remainder. -/
def matchFontFace (s : Str) : Option (Str × Str × Str) :=
  match eatCi "@font-face".data s with
  | none => none
  | some t1 =>
    match t1.dropWhile Char.isWhitespace with
    | b :: t3 =>
      if b = lbrace then
        let inside := t3.takeWhile (fun c => c ≠ rbrace)
        match t3.drop inside.length with
        | _ :: restAfter =>
          match findUrlPath inside with
          | some urlPath =>
            some (s.take (s.length - restAfter.length), urlPath, restAfter)
          | none => none
        | [] => none
      else none
    | [] => none

/-- `(url\s*\([^)]+\))\s*;` (flag `i`, line 497) matched at the head of the
input: the first capture group (through the closing parenthesis) and the
remainder after the `;`. -/
def matchUrlSemi (s : Str) : Option (Str × Str) :=
  match eatCi "url".data s with
  | none => none
  | some t1 =>
    match eatSpaces t1 with
    | '(' :: t3 =>
      let insideP := t3.takeWhile (fun c => c ≠ ')')
      if insideP.isEmpty then none
      else
        match t3.drop insideP.length with
        | ')' :: t4 =>
          match eatSpaces t4 with
          | ';' :: t6 => some (s.take (s.length - t4.length), t6)
          | _ => none
        | _ => none
    | _ => none

/-- `match.replace(/(url\s*\([^)]+\))\s*;/i, '$1 format("woff2");')`
(lines 497-498): rewrite the first occurrence only. -/
def rewriteUrlSemi : Str → Str
  | [] => []
  | c :: rest =>
    match matchUrlSemi (c :: rest) with
    | some (g1, rest') => g1 ++ " format(\"woff2\");".data ++ rest'
    | none => c :: rewriteUrlSemi rest

/-- The font-face callback (lines 494-500): append a format hint when the
captured url path mentions `.woff2` and the block has no `format(` yet. -/
def rewriteBlock (block urlPath : Str) : Str :=
  if includesStr urlPath ".woff2".data && !includesStr block "format(".data then
    rewriteUrlSemi block
  else block

/-- Second phase of `updateFontFormats` (lines 493-500): the global font-face
scan.  Fuel-based recursion as for the token phase. -/
def appendFormatHintsAux : Nat → Str → Str
  | 0, s => s
  | _ + 1, [] => []
  | fuel + 1, c :: rest =>
    match matchFontFace (c :: rest) with
    | some (block, urlPath, rest') =>
      rewriteBlock block urlPath ++ appendFormatHintsAux fuel rest'
    | none => c :: appendFormatHintsAux fuel rest

def appendFormatHints (s : Str) : Str := appendFormatHintsAux s.length s

/-- `updateFontFormats` (lines 482-503): token phase then font-face phase
(the `updated` booleans only gate the file write; the text is as composed
here). -/
def updateFontFormats (content : Str) : Str :=
  appendFormatHints (replaceFormatTokens content)

/-- `updateSingleCssFile` (lines 461-480). -/
def updateSingleCssFile (content oldRef newRef : Str) : Str :=
  let c1 := if includesStr content oldRef
    then FileProcessor.replaceAll oldRef newRef content else content
  if includesStr c1 newRef then updateFontFormats c1 else c1

/-- The literal token `format("truetype")` of the claim. -/
def formatTruetype : Str := "format(\"truetype\")".data

/-- A `format(...)` literal with single quotes. -/
def fmtSq (w : Str) : Str := "format(".data ++ sq :: w ++ sq :: ")".data

/-- The eight exact-case, no-whitespace legacy format token literals. -/
def legacyFormatTokens : List Str :=
  ["format(\"truetype\")".data, "format(\"opentype\")".data,
   "format(\"ttf\")".data, "format(\"otf\")".data,
   fmtSq "truetype".data, fmtSq "opentype".data,
   fmtSq "ttf".data, fmtSq "otf".data]

/-- The old and new portable references of the claim's font round-trip. -/
def fontATtf : Str := "fontA.ttf".data

def fontAWoff2 : Str := "fontA.woff2".data

/-- The hint text inserted by `rewriteUrlSemi` (the replacement suffix of
line 498). -/
def hintIns : Str := " format(\"woff2\");".data

end CSSFontUpdater

end SiteOptimizer

/-! ## Theorems -/

namespace SiteOptimizer

/-- `takeWhile` of a list on which the predicate always holds is the list itself. -/
theorem takeWhileAll {α : Type} (p : α → Bool) :
    ∀ (l : List α), (∀ x ∈ l, p x = true) → l.takeWhile p = l
  | [], _ => rfl
  | a :: l, h => by
    simp only [List.takeWhile_cons, h a (List.mem_cons_self a l), if_true]
    exact congrArg (a :: ·) (takeWhileAll p l fun x hx => h x (List.mem_cons_of_mem a hx))

/-- Alias (with the argument order fixed) for the library fact that
`takeWhile` yields a prefix of the list. -/
theorem takeWhileIsPrefix {α : Type} (p : α → Bool) (l : List α) :
    l.takeWhile p <+: l := List.takeWhile_prefix p

namespace ImageSizeCalculator

theorem incr_widths (w : Nat) :
    (List.range' 128 8 128).takeWhile (fun s => decide (s ≤ w)) =
    (List.range (min MAX_INCREMENT_SIZE w / SIZE_INCREMENT)).map
      (fun i => SIZE_INCREMENT * (i + 1)) := by
  have e : List.range' 128 8 128 = [128, 256, 384, 512, 640, 768, 896, 1024] := rfl
  have hm : w % 128 < 128 := Nat.mod_lt _ (by norm_num)
  have hd := Nat.div_add_mod w 128
  rcases Nat.lt_or_ge w 1024 with h | h
  · have hmin : min MAX_INCREMENT_SIZE w / SIZE_INCREMENT = w / 128 := by
      simp only [MAX_INCREMENT_SIZE, SIZE_INCREMENT]
      congr 1
      omega
    rw [e, hmin]
    obtain ⟨k, hk⟩ : ∃ k, w / 128 = k := ⟨_, rfl⟩
    rw [hk] at hd ⊢
    have hklt : k < 8 := by omega
    interval_cases k <;>
      · simp only [List.takeWhile_cons, decide_eq_true_eq]
        split_ifs <;> first | rfl | omega
  · have hmin : min MAX_INCREMENT_SIZE w / SIZE_INCREMENT = 8 := by
      simp only [MAX_INCREMENT_SIZE, SIZE_INCREMENT]
      have : min 1024 w = 1024 := by omega
      rw [this]
    rw [e, hmin]
    simp only [List.takeWhile_cons, decide_eq_true_eq]
    split_ifs <;> first | rfl | omega

theorem calculate_eq_specPlan (w : Nat) : calculate w = specPlan w := by
  unfold calculate specPlan addIncrementalSizes addIntermediateSizes addOriginalSize
  rw [incr_widths]
  rcases Nat.lt_or_ge MAX_INCREMENT_SIZE w with h | h
  · rw [if_neg (by omega), if_pos h]
  · rw [if_pos h, if_neg (by omega)]

theorem calculate_widths (w : Nat) :
    (calculate w).map (fun e => e.width) =
      ((List.range' 128 8 128).takeWhile (fun s => decide (s ≤ w)))
      ++ (addIntermediateSizes w).map (fun e => e.width) ++ [w] := by
  unfold calculate addIncrementalSizes addOriginalSize
  simp [List.map_map, mkIncrement, Function.comp_def]

theorem incr_mem_facts (w : Nat) :
    ∀ s ∈ (List.range' 128 8 128).takeWhile (fun s => decide (s ≤ w)),
      128 ≤ s ∧ s ≤ 1024 ∧ s ≤ w := by
  intro s hs
  have hsw : s ≤ w := by simpa using List.mem_takeWhile_imp hs
  have hmem : s ∈ List.range' 128 8 128 :=
    ((takeWhileIsPrefix _ _).sublist).mem hs
  have e : List.range' 128 8 128 = [128, 256, 384, 512, 640, 768, 896, 1024] := rfl
  rw [e] at hmem
  fin_cases hmem <;> omega

theorem incr_chain (w : Nat) :
    List.Chain' (· < ·) ((List.range' 128 8 128).takeWhile (fun s => decide (s ≤ w))) := by
  have hc : List.Chain' (· < ·) (List.range' 128 8 128) := by
    have e : List.range' 128 8 128 = [128, 256, 384, 512, 640, 768, 896, 1024] := rfl
    rw [e]
    norm_num [List.chain'_cons]
  exact hc.prefix (takeWhileIsPrefix _ _)

theorem inter_facts (w : Nat) :
    List.Chain' (· < ·) ((addIntermediateSizes w).map (fun e => e.width))
    ∧ (∀ x ∈ (addIntermediateSizes w).map (fun e => e.width), 1024 < x ∧ x ≤ w)
    ∧ (∀ e ∈ addIntermediateSizes w, e.type = .intermediate) := by
  unfold addIntermediateSizes MAX_INCREMENT_SIZE MIN_QUARTER_INCREMENT jsRound
  split_ifs with h1 h2
  · simp
  · refine ⟨?_, ?_, ?_⟩
    · simp only [List.map_cons, List.map_nil, List.chain'_cons, List.chain'_singleton,
        and_true]
      constructor <;> omega
    · intro x hx
      simp only [List.map_cons, List.map_nil, List.mem_cons, List.not_mem_nil,
        or_false] at hx
      rcases hx with rfl | rfl | rfl <;> omega
    · intro e he
      fin_cases he <;> rfl
  · refine ⟨?_, ?_, ?_⟩
    · simp
    · intro x hx
      simp only [List.map_cons, List.map_nil, List.mem_cons, List.not_mem_nil,
        or_false] at hx
      rcases hx with rfl <;> omega
    · intro e he
      fin_cases he <;> rfl

/-- A `Chain'` version of appending when every element of the first list is
related to every element of the second. -/
theorem chainAppendAll {R : Nat → Nat → Prop} :
    ∀ (l₁ l₂ : List Nat), List.Chain' R l₁ → List.Chain' R l₂ →
      (∀ x ∈ l₁, ∀ y ∈ l₂, R x y) → List.Chain' R (l₁ ++ l₂)
  | [], l₂, _, h₂, _ => h₂
  | [a], l₂, _, h₂, hc => by
    cases l₂ with
    | nil => simp
    | cons b l => exact List.Chain'.cons (hc a (by simp) b (by simp)) h₂
  | a :: a' :: l, l₂, h₁, h₂, hc => by
    rw [List.cons_append]
    exact List.Chain'.cons (List.chain'_cons.mp h₁).1
      (chainAppendAll (a' :: l) l₂ (List.chain'_cons.mp h₁).2 h₂
        (fun x hx y hy => hc x (List.mem_cons_of_mem a hx) y hy))

theorem incr_types (w : Nat) : ∀ e ∈ addIncrementalSizes w, e.type = .increment := by
  intro e he
  unfold addIncrementalSizes at he
  obtain ⟨s, _, rfl⟩ := List.mem_map.mp he
  rfl

theorem calculate_chain_lt_front (w : Nat) :
    List.Chain' (· < ·)
      (((List.range' 128 8 128).takeWhile (fun s => decide (s ≤ w)))
        ++ (addIntermediateSizes w).map (fun e => e.width)) := by
  refine chainAppendAll _ _ (incr_chain w) (inter_facts w).1 ?_
  intro x hx y hy
  have h1 := (incr_mem_facts w) x hx
  have h2 := (inter_facts w).2.1 y hy
  omega

theorem filter_nonoriginal (w : Nat) :
    (calculate w).filter (fun e => decide (e.type ≠ .original)) =
      addIncrementalSizes w ++ addIntermediateSizes w := by
  unfold calculate
  rw [List.filter_append, List.filter_append]
  have h1 : (addIncrementalSizes w).filter (fun e => decide (e.type ≠ .original)) =
      addIncrementalSizes w := by
    refine List.filter_eq_self.mpr fun e he => ?_
    rw [incr_types w e he]
    decide
  have h2 : (addIntermediateSizes w).filter (fun e => decide (e.type ≠ .original)) =
      addIntermediateSizes w := by
    refine List.filter_eq_self.mpr fun e he => ?_
    rw [(inter_facts w).2.2 e he]
    decide
  have h3 : (addOriginalSize w).filter (fun e => decide (e.type ≠ .original)) = [] := by
    rfl
  rw [h1, h2, h3, List.append_nil]

theorem incr_widths_map (w : Nat) :
    (addIncrementalSizes w).map (fun e => e.width) =
      (List.range' 128 8 128).takeWhile (fun s => decide (s ≤ w)) := by
  unfold addIncrementalSizes
  simp [List.map_map, mkIncrement, Function.comp_def]

/-- The plan's widths are non-decreasing (shared between several claims). -/
theorem calculate_chain_le (w : Nat) :
    List.Chain' (· ≤ ·) ((calculate w).map fun e => e.width) := by
  rw [calculate_widths, List.append_assoc]
  refine chainAppendAll _ _ ((incr_chain w).imp fun _ _ hl => le_of_lt hl) ?_ ?_
  · refine chainAppendAll _ _ ((inter_facts w).1.imp fun _ _ hl => le_of_lt hl) (by simp) ?_
    intro x hx y hy
    simp only [List.mem_singleton] at hy
    rw [hy]
    exact ((inter_facts w).2.1 x hx).2
  · intro x hx y hy
    have h1 := incr_mem_facts w x hx
    rcases List.mem_append.mp hy with hy | hy
    · have := (inter_facts w).2.1 y hy
      omega
    · simp only [List.mem_singleton] at hy
      omega

/-- C5: for every positive `originalWidth` the produced plan is non-decreasing
by width, contains exactly one `original`-kind entry whose width equals the
source width, and no two non-`original` entries share a width. -/
theorem c5_plan_invariants (w : Nat) (h : 0 < w) :
    List.Chain' (· ≤ ·) ((calculate w).map fun e => e.width)
    ∧ (calculate w).countP (fun e => decide (e.type = .original)) = 1
    ∧ (∀ e ∈ calculate w, e.type = .original → e.width = w)
    ∧ ((calculate w).filter (fun e => decide (e.type ≠ .original))).Pairwise
        (fun a b => a.width ≠ b.width) := by
  refine ⟨calculate_chain_le w, ?_, ?_, ?_⟩
  · unfold calculate
    rw [List.countP_append, List.countP_append]
    have h1 : (addIncrementalSizes w).countP (fun e => decide (e.type = .original)) = 0 := by
      rw [List.countP_eq_zero]
      intro e he
      rw [incr_types w e he]
      decide
    have h2 : (addIntermediateSizes w).countP (fun e => decide (e.type = .original)) = 0 := by
      rw [List.countP_eq_zero]
      intro e he
      rw [(inter_facts w).2.2 e he]
      decide
    have h3 : (addOriginalSize w).countP (fun e => decide (e.type = .original)) = 1 := rfl
    omega
  · intro e he hty
    unfold calculate at he
    rcases List.mem_append.mp he with h' | h'
    · rcases List.mem_append.mp h' with h'' | h''
      · exact absurd ((incr_types w e h'').symm.trans hty) (by decide)
      · exact absurd (((inter_facts w).2.2 e h'').symm.trans hty) (by decide)
    · unfold addOriginalSize at h'
      simp only [List.mem_singleton] at h'
      rw [h']
  · rw [filter_nonoriginal]
    have hch : List.Chain' (· < ·)
        ((addIncrementalSizes w ++ addIntermediateSizes w).map fun e => e.width) := by
      rw [List.map_append, incr_widths_map]
      exact calculate_chain_lt_front w
    have hpw := List.chain'_iff_pairwise.mp hch
    have hpw2 := List.pairwise_map.mp hpw
    exact hpw2.imp fun hab => Nat.ne_of_lt hab

/-- C10: no upscaling — every planned width is at most the original width,
the plan is never empty, and below 128 pixels it is the original entry
alone. -/
theorem c10_no_upscaling (w : Nat) (h : 0 < w) :
    (∀ e ∈ calculate w, e.width ≤ w)
    ∧ calculate w ≠ []
    ∧ (w < 128 → calculate w = [⟨w, "original", .original⟩]) := by
  refine ⟨?_, ?_, ?_⟩
  · intro e he
    unfold calculate at he
    rcases List.mem_append.mp he with h' | h'
    · rcases List.mem_append.mp h' with h'' | h''
      · unfold addIncrementalSizes at h''
        obtain ⟨s, hs, rfl⟩ := List.mem_map.mp h''
        exact ((incr_mem_facts w) s hs).2.2
      · have hm : e.width ∈ (addIntermediateSizes w).map (fun e => e.width) :=
          List.mem_map_of_mem _ h''
        exact ((inter_facts w).2.1 _ hm).2
    · unfold addOriginalSize at h'
      simp only [List.mem_singleton] at h'
      rw [h']
  · unfold calculate addOriginalSize
    simp
  · intro hw
    unfold calculate addIncrementalSizes addIntermediateSizes addOriginalSize
    have e : List.range' 128 8 128 = 128 :: [256, 384, 512, 640, 768, 896, 1024] := rfl
    rw [e, List.takeWhile_cons, if_neg (by simp; omega),
      if_pos (show w ≤ MAX_INCREMENT_SIZE by unfold MAX_INCREMENT_SIZE; omega)]
    rfl

/-- C2: the computed plan coincides with the spec's reference definition, and
for `originalWidth ≤ 1024` the widths are the multiples of 128 up to the
width followed by the original entry; strictness of the ordering holds
exactly when 128 does not divide the width. -/
theorem c2_plan_matches_reference (w : Nat) (h : 0 < w) :
    calculate w = specPlan w
    ∧ (w ≤ 1024 →
        ((calculate w).map fun e => e.width)
          = (List.range (w / 128)).map (fun i => 128 * (i + 1)) ++ [w]
        ∧ (List.Chain' (· < ·) ((calculate w).map fun e => e.width) ↔ ¬ (128 ∣ w))) := by
  refine ⟨calculate_eq_specPlan w, fun hle => ?_⟩
  have hinter : addIntermediateSizes w = [] := by
    unfold addIntermediateSizes
    rw [if_pos (show w ≤ MAX_INCREMENT_SIZE by unfold MAX_INCREMENT_SIZE; omega)]
  have hmults : (List.range' 128 8 128).takeWhile (fun s => decide (s ≤ w)) =
      (List.range (w / 128)).map (fun i => 128 * (i + 1)) := by
    have h1 := incr_widths w
    have h2 : min MAX_INCREMENT_SIZE w / SIZE_INCREMENT = w / 128 := by
      simp only [MAX_INCREMENT_SIZE, SIZE_INCREMENT]
      congr 1
      omega
    rw [h2] at h1
    simpa [SIZE_INCREMENT] using h1
  have hwidths : (calculate w).map (fun e => e.width) =
      (List.range (w / 128)).map (fun i => 128 * (i + 1)) ++ [w] := by
    rw [calculate_widths, hinter, hmults]
    simp
  refine ⟨hwidths, ?_⟩
  rw [hwidths]
  have hm : w % 128 < 128 := Nat.mod_lt _ (by norm_num)
  have hd := Nat.div_add_mod w 128
  obtain ⟨k, hk⟩ : ∃ k, w / 128 = k := ⟨_, rfl⟩
  rw [hk] at hd ⊢
  cases k with
  | zero =>
    simp only [List.range_zero, List.map_nil, List.nil_append, List.chain'_singleton]
    exact iff_of_true trivial (fun hdvd => by omega)
  | succ k' =>
    rw [List.range_succ, List.map_append]
    simp only [List.map_cons, List.map_nil]
    rw [List.chain'_append]
    constructor
    · rintro ⟨-, -, hb⟩
      have hlt : 128 * (k' + 1) < w := by
        refine hb (128 * (k' + 1)) ?_ w (by simp)
        rw [List.getLast?_concat]
        rfl
      intro hdvd
      omega
    · intro hnd
      refine ⟨?_, List.chain'_singleton _, ?_⟩
      · have hp : List.Pairwise (· < ·) (List.range (k' + 1)) := List.pairwise_lt_range _
        have hp2 : List.Pairwise (· < ·)
            ((List.range (k' + 1)).map fun i => 128 * (i + 1)) := by
          rw [List.pairwise_map]
          exact hp.imp fun hab => by omega
        have := hp2.chain'
        rwa [List.range_succ, List.map_append, List.map_cons, List.map_nil] at this
      · intro x hx y hy
        rw [List.getLast?_concat] at hx
        simp only [Option.mem_def, Option.some_inj] at hx
        simp only [List.head?_cons, Option.mem_def, Option.some_inj] at hy
        subst hx
        subst hy
        omega

/-- C2 counterexample: at `originalWidth = 256` (a positive multiple of 128
that is at most 1024) the plan's widths are `[128, 256, 256]` — the appended
`original` entry repeats the last increment, so the plan is not strictly
increasing as the claim states. -/
theorem c2_plan_counterexample :
    (calculate 256).map (fun e => e.width) = [128, 256, 256]
    ∧ ¬ List.Chain' (· < ·) [128, 256, 256] := by
  constructor
  · rfl
  · intro hch
    rw [List.chain'_cons, List.chain'_cons] at hch
    exact absurd hch.2.1 (by norm_num)

/-- Witness for the amended C2 claim, at `originalWidth = 768`. -/
theorem c2_plan_witness :
    calculate 768 = specPlan 768
    ∧ ((calculate 768).map fun e => e.width)
        = (List.range (768 / 128)).map (fun i => 128 * (i + 1)) ++ [768] := by
  have h := c2_plan_matches_reference 768 (by decide)
  exact ⟨h.1, (h.2 (by decide)).1⟩

/-- Witness for C5, at `originalWidth = 2000`. -/
theorem c5_plan_witness :
    0 < 2000 ∧ List.Chain' (· ≤ ·) ((calculate 2000).map fun e => e.width) :=
  ⟨by decide, (c5_plan_invariants 2000 (by decide)).1⟩

/-- Witness for C10, at `originalWidth = 100`. -/
theorem c10_no_upscaling_witness :
    (∀ e ∈ calculate 100, e.width ≤ 100)
    ∧ calculate 100 = [⟨100, "original", .original⟩] :=
  ⟨(c10_no_upscaling 100 (by decide)).1, (c10_no_upscaling 100 (by decide)).2.2 (by decide)⟩

end ImageSizeCalculator

namespace ImageOptimizer

/-- C1 counterexample: for the concrete plan `[128, 256]` without failure the
per-asset trace deletes the original raster (index 2) strictly before the
reference rewrite (index 3); the claim states the original is removed only
after rewrite completion. -/
theorem c1_delete_counterexample :
    processImageTrace [128, 256] none =
      [.materialize 128, .materialize 256, .deleteOriginal, .rewriteReferences]
    ∧ (processImageTrace [128, 256] none).indexOf PipelineEvent.deleteOriginal
        < (processImageTrace [128, 256] none).indexOf PipelineEvent.rewriteReferences := by
  exact ⟨rfl, by decide⟩

/-- C1 amended: the original raster is deleted only after every planned
variant has materialized — a failure during materialization leaves the
original in place — but the deletion happens immediately before the
per-asset reference rewrite, not after it. -/
theorem c1_staged_deletion (plan : List Nat) (failAt : Option Nat)
    (h : PipelineEvent.deleteOriginal ∈ processImageTrace plan failAt) :
    failAt = none
    ∧ processImageTrace plan failAt =
        plan.map PipelineEvent.materialize
          ++ [PipelineEvent.deleteOriginal, PipelineEvent.rewriteReferences] := by
  cases failAt with
  | none => exact ⟨rfl, rfl⟩
  | some k =>
    exfalso
    unfold processImageTrace at h
    obtain ⟨x, _, hx⟩ := List.mem_map.mp h
    exact PipelineEvent.noConfusion hx

/-- Witness for the amended C1 claim, at the one-entry plan `[128]`. -/
theorem c1_staged_deletion_witness :
    processImageTrace [128] none =
      [.materialize 128, .deleteOriginal, .rewriteReferences] :=
  (c1_staged_deletion [128] none (by decide)).2

/-- C9: per-asset fault isolation — the pass equals the concatenation of the
successful assets' outputs, so every output of a successful asset appears in
the result no matter which other assets fail, and the pass itself is total
(never aborts). -/
theorem c9_fault_isolation {α β : Type} (process : α → Option (List β))
    (assets : List α) :
    optimizePass process assets = (assets.filterMap process).flatten
    ∧ (∀ a r, a ∈ assets → process a = some r →
        ∀ x ∈ r, x ∈ optimizePass process assets) := by
  have hfold : ∀ (l : List α) (acc : List β),
      l.foldl (fun acc a =>
        match process a with
        | some r => acc ++ r
        | none => acc) acc = acc ++ (l.filterMap process).flatten := by
    intro l
    induction l with
    | nil => intro acc; simp
    | cons a l ih =>
      intro acc
      simp only [List.foldl_cons, List.filterMap_cons]
      cases hpa : process a with
      | none => rw [ih]
      | some r =>
        rw [ih]
        simp [List.append_assoc]
  have h1 : optimizePass process assets = (assets.filterMap process).flatten := by
    unfold optimizePass
    rw [hfold]
    simp
  refine ⟨h1, fun a r ha hr x hx => ?_⟩
  rw [h1, List.mem_flatten]
  exact ⟨r, List.mem_filterMap.mpr ⟨a, ha, hr⟩, hx⟩

/-- Witness for C9: with assets `[1, 2, 3]` and asset `2` failing, the
outputs of assets `1` and `3` still appear in the pass result. -/
theorem c9_fault_isolation_witness :
    (10 : Nat) ∈ optimizePass
        (fun a : Nat => if a = 2 then none else some [10 * a]) [1, 2, 3]
    ∧ (30 : Nat) ∈ optimizePass
        (fun a : Nat => if a = 2 then none else some [10 * a]) [1, 2, 3] := by
  have h := c9_fault_isolation
    (fun a : Nat => if a = 2 then none else some [10 * a]) [1, 2, 3]
  exact ⟨h.2 1 [10] (by decide) (by decide) 10 (by decide),
         h.2 3 [30] (by decide) (by decide) 30 (by decide)⟩

end ImageOptimizer

/-- `intercalate` over a list extended by one element on the right. -/
theorem intercalateConcat (sep : Str) :
    ∀ (l : List Str) (x : Str), l ≠ [] →
      List.intercalate sep (l ++ [x]) = List.intercalate sep l ++ sep ++ x
  | [], _, h => absurd rfl h
  | [a], x, _ => by simp [List.intercalate]
  | a :: b :: l, x, _ => by
    have ih := intercalateConcat sep (b :: l) x (by simp)
    simp only [List.intercalate] at ih ⊢
    simp only [List.cons_append, List.intersperse_cons_cons, List.flatten_cons] at ih ⊢
    rw [ih]
    simp [List.append_assoc]

namespace HtmlSrcsetUpdater

/-- Sequential whole-content passes commute with per-node processing: a fold
of maps is the map of the per-node fold. -/
theorem foldl_map_passes {γ : Type} (g : Str → γ → γ) :
    ∀ (pats : List Str) (content : List γ),
      pats.foldl (fun c p => c.map (g p)) content
        = content.map (fun n => pats.foldl (fun m p => g p m) n)
  | [], content => by simp
  | p :: ps, content => by
    simp only [List.foldl_cons]
    rw [foldl_map_passes g ps (content.map (g p)), List.map_map]
    rfl

theorem fold_applyPattern_text (sv v : Str) :
    ∀ (pats : List Str) (s : Str),
      pats.foldl (fun m p => applyPattern p sv v m) (.text s) = .text s
  | [], _ => rfl
  | _ :: ps, s => fold_applyPattern_text sv v ps s

theorem fold_applyPattern_img (sv v : Str) :
    ∀ (pats : List Str) (attrs : List Attr),
      pats.foldl (fun m p => applyPattern p sv v m) (.img attrs)
        = .img (pats.foldl (fun m p => applyPatternAttrs p sv v m) attrs)
  | [], _ => rfl
  | _ :: ps, attrs => fold_applyPattern_img sv v ps _

theorem fold_no_match (sv v : Str) :
    ∀ (pats : List Str) (attrs : List Attr),
      (∀ p ∈ pats, attrs.any (isMatchingSrc p) = false) →
      pats.foldl (fun m p => applyPatternAttrs p sv v m) attrs = attrs
  | [], _, _ => rfl
  | p :: ps, attrs, h => by
    have hstep : applyPatternAttrs p sv v attrs = attrs := by
      unfold applyPatternAttrs
      rw [h p (List.mem_cons_self p ps)]
      simp
    rw [List.foldl_cons, hstep]
    exact fold_no_match sv v ps attrs fun q hq => h q (List.mem_cons_of_mem p hq)

theorem replaceFirstSrcset_cons (v : Str) (a : Attr) (as : List Attr) :
    replaceFirstSrcset v (a :: as) =
      if lowerStr a.name == "srcset".data then ⟨"srcset".data, v⟩ :: as
      else a :: replaceFirstSrcset v as := rfl

theorem injectSrcset_cons (pat sv' v : Str) (a : Attr) (as : List Attr) :
    injectSrcset pat sv' v (a :: as) =
      if isMatchingSrc pat a then ⟨a.name, sv'⟩ :: ⟨"srcset".data, v⟩ :: as
      else a :: injectSrcset pat sv' v as := rfl

theorem hasSrcset_cons (a : Attr) (as : List Attr) :
    hasSrcset (a :: as) = ((a.name == "srcset".data) || hasSrcset as) := rfl

theorem replaceFirstSrcset_idem (v : Str) :
    ∀ (m : List Attr),
      replaceFirstSrcset v (replaceFirstSrcset v m) = replaceFirstSrcset v m
  | [] => rfl
  | a :: as => by
    rw [replaceFirstSrcset_cons]
    split_ifs with h
    · rw [replaceFirstSrcset_cons,
        if_pos (show (lowerStr (Attr.mk "srcset".data v).name == "srcset".data) = true
          from rfl)]
    · rw [replaceFirstSrcset_cons, if_neg h, replaceFirstSrcset_idem v as]

theorem hasSrcset_replaceFirst (v : Str) :
    ∀ (m : List Attr), (m.any fun a => lowerStr a.name == "srcset".data) = true →
      hasSrcset (replaceFirstSrcset v m) = true
  | [], h => by simp at h
  | a :: as, h => by
    rw [replaceFirstSrcset_cons]
    split_ifs with hci
    · rw [hasSrcset_cons]
      simp
    · have has : (as.any fun a => lowerStr a.name == "srcset".data) = true := by
        simp only [List.any_cons] at h
        rcases Bool.or_eq_true_iff.mp h with h' | h'
        · exact absurd h' hci
        · exact h'
      rw [hasSrcset_cons, hasSrcset_replaceFirst v as has]
      simp

theorem hasCi_of_hasSrcset :
    ∀ (m : List Attr), hasSrcset m = true →
      (m.any fun a => lowerStr a.name == "srcset".data) = true := by
  intro m h
  obtain ⟨a, ha, hname⟩ := List.any_eq_true.mp h
  refine List.any_eq_true.mpr ⟨a, ha, ?_⟩
  have : a.name = "srcset".data := by simpa using hname
  rw [this]
  decide

theorem noCi_inject_fixed (pat sv' v : Str) :
    ∀ (m : List Attr), (m.any fun a => lowerStr a.name == "srcset".data) = false →
      replaceFirstSrcset v (injectSrcset pat sv' v m) = injectSrcset pat sv' v m
  | [], _ => rfl
  | a :: as, h => by
    have hhead : (lowerStr a.name == "srcset".data) = false := by
      simp only [List.any_cons, Bool.or_eq_false_iff] at h
      exact h.1
    have htail : (as.any fun a => lowerStr a.name == "srcset".data) = false := by
      simp only [List.any_cons, Bool.or_eq_false_iff] at h
      exact h.2
    rw [injectSrcset_cons]
    split_ifs with hm
    · rw [replaceFirstSrcset_cons, if_neg (by simp [hhead]),
        replaceFirstSrcset_cons,
        if_pos (show (lowerStr (Attr.mk "srcset".data v).name == "srcset".data) = true
          from rfl)]
    · rw [replaceFirstSrcset_cons, if_neg (by simp [hhead]),
        noCi_inject_fixed pat sv' v as htail]

theorem inject_hasSrcset (pat sv' v : Str) :
    ∀ (m : List Attr), m.any (isMatchingSrc pat) = true →
      hasSrcset (injectSrcset pat sv' v m) = true
  | [], h => by simp at h
  | a :: as, h => by
    rw [injectSrcset_cons]
    split_ifs with hm
    · rw [hasSrcset_cons, hasSrcset_cons]
      simp
    · have htail : as.any (isMatchingSrc pat) = true := by
        simp only [List.any_cons] at h
        rcases Bool.or_eq_true_iff.mp h with h' | h'
        · exact absurd h' hm
        · exact h'
      rw [hasSrcset_cons, inject_hasSrcset pat sv' v as htail]
      simp

theorem applyPatternAttrs_fixed (p sv' v : Str) (m : List Attr)
    (h1 : hasSrcset m = true) (h2 : replaceFirstSrcset v m = m) :
    applyPatternAttrs p sv' v m = m := by
  unfold applyPatternAttrs rewriteTag
  by_cases hm : m.any (isMatchingSrc p) = true
  · rw [if_pos hm, if_pos h1]
    exact h2
  · rw [Bool.not_eq_true] at hm
    rw [hm]
    simp

theorem fold_fixed (sv' v : Str) :
    ∀ (pats : List Str) (m : List Attr),
      hasSrcset m = true → replaceFirstSrcset v m = m →
      pats.foldl (fun m p => applyPatternAttrs p sv' v m) m = m
  | [], _, _, _ => rfl
  | p :: ps, m, h1, h2 => by
    rw [List.foldl_cons, applyPatternAttrs_fixed p sv' v m h1 h2]
    exact fold_fixed sv' v ps m h1 h2

theorem fold_invariant (sv' v : Str) :
    ∀ (pats : List Str) (m : List Attr),
      (∀ a ∈ m, lowerStr a.name = "srcset".data → a.name = "srcset".data) →
      pats.foldl (fun m p => applyPatternAttrs p sv' v m) m = m
      ∨ (hasSrcset (pats.foldl (fun m p => applyPatternAttrs p sv' v m) m) = true
          ∧ replaceFirstSrcset v (pats.foldl (fun m p => applyPatternAttrs p sv' v m) m)
            = pats.foldl (fun m p => applyPatternAttrs p sv' v m) m)
  | [], m, _ => Or.inl rfl
  | p :: ps, m, hclean => by
    by_cases hm : m.any (isMatchingSrc p) = true
    · by_cases hss : hasSrcset m = true
      · have hstep : applyPatternAttrs p sv' v m = replaceFirstSrcset v m := by
          unfold applyPatternAttrs rewriteTag
          rw [if_pos hm, if_pos hss]
        have hinv1 : hasSrcset (replaceFirstSrcset v m) = true :=
          hasSrcset_replaceFirst v m (hasCi_of_hasSrcset m hss)
        have hinv2 := replaceFirstSrcset_idem v m
        right
        rw [List.foldl_cons, hstep, fold_fixed sv' v ps _ hinv1 hinv2]
        exact ⟨hinv1, hinv2⟩
      · have hnoci : (m.any fun a => lowerStr a.name == "srcset".data) = false := by
          by_contra hc
          have hc' : (m.any fun a => lowerStr a.name == "srcset".data) = true :=
            Bool.not_eq_false _ ▸ eq_true_of_ne_false hc
          obtain ⟨a, ha, hci⟩ := List.any_eq_true.mp hc'
          have : a.name = "srcset".data := hclean a ha (by simpa using hci)
          exact hss (List.any_eq_true.mpr ⟨a, ha, by simp [this]⟩)
        have hstep : applyPatternAttrs p sv' v m = injectSrcset p sv' v m := by
          unfold applyPatternAttrs rewriteTag
          rw [if_pos hm, if_neg (by rw [Bool.not_eq_true] at hss ⊢; exact hss)]
        have hinv1 := inject_hasSrcset p sv' v m hm
        have hinv2 := noCi_inject_fixed p sv' v m hnoci
        right
        rw [List.foldl_cons, hstep, fold_fixed sv' v ps _ hinv1 hinv2]
        exact ⟨hinv1, hinv2⟩
    · have hstep : applyPatternAttrs p sv' v m = m := by
        unfold applyPatternAttrs
        rw [Bool.not_eq_true] at hm
        rw [hm]
        simp
      rw [List.foldl_cons, hstep]
      exact fold_invariant sv' v ps m hclean

theorem inject_decomp (pat sv' v : Str) :
    ∀ (m : List Attr), m.any (isMatchingSrc pat) = true →
      ∃ pre a post, m = pre ++ a :: post ∧ isMatchingSrc pat a = true
        ∧ (∀ b ∈ pre, isMatchingSrc pat b = false)
        ∧ injectSrcset pat sv' v m
            = pre ++ ⟨a.name, sv'⟩ :: ⟨"srcset".data, v⟩ :: post
  | [], h => by simp at h
  | b :: as, h => by
    by_cases hb : isMatchingSrc pat b = true
    · exact ⟨[], b, as, by simp, hb, by simp,
        by rw [injectSrcset_cons, if_pos hb]; rfl⟩
    · have htail : as.any (isMatchingSrc pat) = true := by
        simp only [List.any_cons] at h
        rcases Bool.or_eq_true_iff.mp h with h' | h'
        · exact absurd h' hb
        · exact h'
      obtain ⟨pre, a, post, he, hma, hpre, hres⟩ := inject_decomp pat sv' v as htail
      refine ⟨b :: pre, a, post, by rw [List.cons_append, ← he], hma, ?_, ?_⟩
      · intro c hc
        rcases List.mem_cons.mp hc with rfl | hc
        · exact Bool.eq_false_iff.mpr hb
        · exact hpre c hc
      · rw [injectSrcset_cons, if_neg hb, hres, List.cons_append]

theorem replaceFirst_keeps_src (v : Str) :
    ∀ (m : List Attr) (a : Attr), a ∈ m →
      strEndsWith (lowerStr a.name) "src".data = true →
      a ∈ replaceFirstSrcset v m
  | [], a, ha, _ => absurd ha (List.not_mem_nil a)
  | b :: as, a, ha, hsrc => by
    rw [replaceFirstSrcset_cons]
    split_ifs with hci
    · rcases List.mem_cons.mp ha with rfl | ha'
      · exfalso
        have hl : lowerStr a.name = "srcset".data := by simpa using hci
        rw [hl] at hsrc
        exact absurd hsrc (by decide)
      · exact List.mem_cons_of_mem _ ha'
    · rcases List.mem_cons.mp ha with rfl | ha'
      · exact List.mem_cons_self _ _
      · exact List.mem_cons_of_mem _ (replaceFirst_keeps_src v as a ha' hsrc)

/-- C4 amended: the HTML rewrite is idempotent on every content in which no
`<img>` element carries a case-variant spelling of the `srcset` attribute
(the source tests for an existing srcset case-sensitively but replaces it
case-insensitively, so an uppercase `SRCSET` breaks idempotence). -/
theorem c4_rewrite_idempotent (rel : Str → Str) (gis : List GenImg)
    (baseName baseRef : Str) (content : List HtmlNode)
    (hclean : ∀ attrs, HtmlNode.img attrs ∈ content → ∀ a ∈ attrs,
      lowerStr a.name = "srcset".data → a.name = "srcset".data) :
    updateSingleFile rel gis baseName baseRef
        (updateSingleFile rel gis baseName baseRef content)
      = updateSingleFile rel gis baseName baseRef content := by
  unfold updateSingleFile
  simp only [foldl_map_passes]
  rw [List.map_map]
  refine List.map_congr_left fun n hn => ?_
  simp only [Function.comp_apply]
  cases n with
  | text s => rw [fold_applyPattern_text, fold_applyPattern_text]
  | img attrs =>
    rw [fold_applyPattern_img, fold_applyPattern_img]
    rcases fold_invariant (srcValue rel gis) (generateSrcsetValues rel gis)
        (patternList baseName baseRef) attrs (hclean attrs hn) with h | ⟨h1, h2⟩
    · rw [h, h]
    · rw [fold_fixed _ _ _ _ h1 h2]

/-- C4 counterexample: an `<img>` carrying an uppercase `SRCSET` attribute
whose `src` matches only the very last pattern (base reference + `.avif`).
The first application injects a lowercase `srcset`; the second application
re-matches via the rewritten `src` (base name + `.avif`), now finds a
lowercase `srcset`, and the case-insensitive replace rewrites the `SRCSET`
attribute instead — so applying the rewrite twice differs from applying it
once. -/
theorem c4_counterexample :
    updateSingleFile id
        [⟨"o/photo.avif".data, 900, "original".data, SizeType.original⟩]
        "photo".data "images".data
        (updateSingleFile id
          [⟨"o/photo.avif".data, 900, "original".data, SizeType.original⟩]
          "photo".data "images".data
          [.img [⟨"SRCSET".data, "x".data⟩, ⟨"src".data, "foo/images.avif".data⟩]])
      ≠ updateSingleFile id
          [⟨"o/photo.avif".data, 900, "original".data, SizeType.original⟩]
          "photo".data "images".data
          [.img [⟨"SRCSET".data, "x".data⟩, ⟨"src".data, "foo/images.avif".data⟩]] := by
  decide

/-- Witness for the amended C4 claim: a lowercase-srcset content on which the
rewrite is idempotent. -/
theorem c4_rewrite_idempotent_witness :
    updateSingleFile id
        [⟨"o/photo.avif".data, 900, "original".data, SizeType.original⟩]
        "photo".data "images".data
        (updateSingleFile id
          [⟨"o/photo.avif".data, 900, "original".data, SizeType.original⟩]
          "photo".data "images".data
          [.img [⟨"src".data, "a/photo.jpg".data⟩]])
      = updateSingleFile id
          [⟨"o/photo.avif".data, 900, "original".data, SizeType.original⟩]
          "photo".data "images".data
          [.img [⟨"src".data, "a/photo.jpg".data⟩]] := by
  refine c4_rewrite_idempotent id _ _ _ _ ?_
  intro attrs hin a ha hl
  rw [List.mem_singleton] at hin
  injection hin with h1
  subst h1
  simp only [List.mem_singleton] at ha
  subst ha
  exact absurd hl (by decide)

/-- C3 amended: the rewrite's behaviour as implemented — the srcset value
lists ALL variants, the `original`-kind one included, appended after the
non-original entries; variant order follows the (non-decreasing) plan order;
text nodes and non-matching elements are untouched; when a `srcset` attribute
already exists only its (first, case-insensitively matched) occurrence is
replaced and the `src` attributes are left unchanged; when none exists, the
first matching `src` attribute's value becomes the `original` variant's
relative path with the `srcset` attribute injected immediately after it,
preserving the surrounding attribute order. -/
theorem c3_rewrite_behaviour :
    (∀ (rel : Str → Str) (rest : List GenImg) (org : GenImg),
        org.type = SizeType.original → (∀ g ∈ rest, g.type ≠ SizeType.original) →
        rest ≠ [] →
        generateSrcsetValues rel (rest ++ [org])
          = specSrcsetValues rel (rest ++ [org]) ++ ", ".data
              ++ (rel org.path ++ " ".data ++ natStr org.width ++ "w".data))
    ∧ (∀ (w : Nat) (gis : List GenImg),
        gis.map (fun g => g.width)
            = (ImageSizeCalculator.calculate w).map (fun e => e.width) →
        List.Chain' (· ≤ ·) (gis.map fun g => g.width))
    ∧ (∀ (rel : Str → Str) (gis : List GenImg) (baseName baseRef : Str)
          (content : List HtmlNode),
        updateSingleFile rel gis baseName baseRef content
          = content.map (fun n => (patternList baseName baseRef).foldl
              (fun m p => applyPattern p (srcValue rel gis)
                (generateSrcsetValues rel gis) m) n))
    ∧ (∀ (sv' v : Str) (pats : List Str) (s : Str),
        pats.foldl (fun m p => applyPattern p sv' v m) (.text s) = .text s)
    ∧ (∀ (sv' v : Str) (pats : List Str) (attrs : List Attr),
        (∀ p ∈ pats, attrs.any (isMatchingSrc p) = false) →
        pats.foldl (fun m p => applyPatternAttrs p sv' v m) attrs = attrs)
    ∧ (∀ (pat sv' v : Str) (attrs : List Attr),
        hasSrcset attrs = true → attrs.any (isMatchingSrc pat) = true →
        applyPatternAttrs pat sv' v attrs = replaceFirstSrcset v attrs
        ∧ ∀ a ∈ attrs, strEndsWith (lowerStr a.name) "src".data = true →
            a ∈ applyPatternAttrs pat sv' v attrs)
    ∧ (∀ (pat sv' v : Str) (attrs : List Attr),
        hasSrcset attrs = false → attrs.any (isMatchingSrc pat) = true →
        ∃ pre a post, attrs = pre ++ a :: post ∧ isMatchingSrc pat a = true
          ∧ (∀ b ∈ pre, isMatchingSrc pat b = false)
          ∧ applyPatternAttrs pat sv' v attrs
              = pre ++ ⟨a.name, sv'⟩ :: ⟨"srcset".data, v⟩ :: post) := by
  refine ⟨?_, ?_, ?_, ?_, ?_, ?_, ?_⟩
  · intro rel rest org h1 h2 h3
    unfold generateSrcsetValues specSrcsetValues
    rw [List.map_append, List.map_cons, List.map_nil]
    rw [intercalateConcat _ _ _ (by simpa using h3)]
    have hfil : (rest ++ [org]).filter (fun g => g.type != SizeType.original)
        = rest := by
      rw [List.filter_append]
      have e1 : rest.filter (fun g => g.type != SizeType.original) = rest :=
        List.filter_eq_self.mpr fun g hg => by
          have hne := h2 g hg
          simpa using hne
      have e2 : [org].filter (fun g => g.type != SizeType.original) = [] := by
        simp [List.filter, h1]
      rw [e1, e2, List.append_nil]
    rw [hfil]
  · intro w gis hmapeq
    rw [hmapeq]
    exact ImageSizeCalculator.calculate_chain_le w
  · intro rel gis baseName baseRef content
    unfold updateSingleFile
    exact foldl_map_passes _ _ _
  · intro sv' v pats s
    exact fold_applyPattern_text sv' v pats s
  · intro sv' v pats attrs h
    exact fold_no_match sv' v pats attrs h
  · intro pat sv' v attrs h1 h2
    have he : applyPatternAttrs pat sv' v attrs = replaceFirstSrcset v attrs := by
      unfold applyPatternAttrs rewriteTag
      rw [if_pos h2, if_pos h1]
    refine ⟨he, fun a ha hsrc => ?_⟩
    rw [he]
    exact replaceFirst_keeps_src v attrs a ha hsrc
  · intro pat sv' v attrs h1 h2
    have he : applyPatternAttrs pat sv' v attrs = injectSrcset pat sv' v attrs := by
      unfold applyPatternAttrs rewriteTag
      rw [if_pos h2, if_neg (by simp [h1])]
    obtain ⟨pre, a, post, hsplit, hma, hpre, hres⟩ := inject_decomp pat sv' v attrs h2
    exact ⟨pre, a, post, hsplit, hma, hpre, by rw [he, hres]⟩

/-- C3 counterexample: an element that already carries a `srcset` keeps its
stale `src` (it is not redirected to the `original` variant), and the written
srcset value includes the `original`-kind variant — both contrary to the
claim. -/
theorem c3_counterexample :
    updateSingleFile id
        [⟨"i/128/photo-128w.avif".data, 128, "128".data, SizeType.increment⟩,
         ⟨"i/original/photo.avif".data, 1000, "original".data, SizeType.original⟩]
        "photo".data "images".data
        [.img [⟨"src".data, "photo.jpg".data⟩, ⟨"srcset".data, "old".data⟩]]
      = [.img [⟨"src".data, "photo.jpg".data⟩,
          ⟨"srcset".data,
            "i/128/photo-128w.avif 128w, i/original/photo.avif 1000w".data⟩]]
    ∧ srcValue id
        [⟨"i/128/photo-128w.avif".data, 128, "128".data, SizeType.increment⟩,
         ⟨"i/original/photo.avif".data, 1000, "original".data, SizeType.original⟩]
        = "i/original/photo.avif".data
    ∧ "photo.jpg".data ≠ ("i/original/photo.avif".data : Str)
    ∧ specSrcsetValues id
        [⟨"i/128/photo-128w.avif".data, 128, "128".data, SizeType.increment⟩,
         ⟨"i/original/photo.avif".data, 1000, "original".data, SizeType.original⟩]
        = "i/128/photo-128w.avif 128w".data
    ∧ generateSrcsetValues id
        [⟨"i/128/photo-128w.avif".data, 128, "128".data, SizeType.increment⟩,
         ⟨"i/original/photo.avif".data, 1000, "original".data, SizeType.original⟩]
        ≠ specSrcsetValues id
        [⟨"i/128/photo-128w.avif".data, 128, "128".data, SizeType.increment⟩,
         ⟨"i/original/photo.avif".data, 1000, "original".data, SizeType.original⟩] := by
  refine ⟨by decide, by decide, by decide, by decide, by decide⟩

/-- Witness for the amended C3 claim at a concrete variant set and element. -/
theorem c3_rewrite_witness :
    generateSrcsetValues id
        [⟨"i/128/photo-128w.avif".data, 128, "128".data, SizeType.increment⟩,
         ⟨"i/original/photo.avif".data, 1000, "original".data, SizeType.original⟩]
      = specSrcsetValues id
          [⟨"i/128/photo-128w.avif".data, 128, "128".data, SizeType.increment⟩,
           ⟨"i/original/photo.avif".data, 1000, "original".data, SizeType.original⟩]
          ++ ", ".data
          ++ (id "i/original/photo.avif".data ++ " ".data ++ natStr 1000 ++ "w".data)
    ∧ applyPatternAttrs "photo.jpg".data "sv".data "v".data
        [⟨"src".data, "photo.jpg".data⟩, ⟨"srcset".data, "old".data⟩]
      = replaceFirstSrcset "v".data
        [⟨"src".data, "photo.jpg".data⟩, ⟨"srcset".data, "old".data⟩] := by
  have h := c3_rewrite_behaviour
  refine ⟨?_, ?_⟩
  · exact h.1 id
      [⟨"i/128/photo-128w.avif".data, 128, "128".data, SizeType.increment⟩]
      ⟨"i/original/photo.avif".data, 1000, "original".data, SizeType.original⟩
      (by decide) (by decide) (by decide)
  · exact (h.2.2.2.2.2.1 "photo.jpg".data "sv".data "v".data
      [⟨"src".data, "photo.jpg".data⟩, ⟨"srcset".data, "old".data⟩]
      (by decide) (by decide)).1

end HtmlSrcsetUpdater

namespace FontConverter

/-- C8 counterexample: code point `0` lies inside the allow-listed Basic
Latin range `[0x0000, 0x007F]`, yet the filter's falsy guard drops the glyph,
so retention is not equivalent to allow-list membership as the claim
states. -/
theorem c8_counterexample :
    inAllowList 0 = true
    ∧ glyphFilter ⟨0, "null".data⟩ = false
    ∧ keptGlyphs [⟨0, "null".data⟩] = [] := by
  refine ⟨by decide, by decide, by decide⟩

/-- C8 amended: a glyph is retained iff its code point is nonzero AND lies in
an allow-listed range or equals an explicit singleton; the rebuilt cmap's
keys are exactly the retained glyphs' code points in order; a glyph at
`0x20AB` is always retained. -/
theorem c8_glyph_filtering (glyf : List Glyph) :
    (∀ g, g ∈ keptGlyphs glyf ↔
        g ∈ glyf ∧ g.unicode ≠ 0 ∧ inAllowList g.unicode = true)
    ∧ (rebuildCmap (keptGlyphs glyf)).map (fun e => e.1)
        = (keptGlyphs glyf).map (fun g => g.unicode)
    ∧ (∀ g ∈ glyf, g.unicode = 0x20AB → g ∈ keptGlyphs glyf) := by
  have hkept0 : ∀ g ∈ keptGlyphs glyf, g.unicode ≠ 0 := by
    intro g hg
    have hf := (List.mem_filter.mp hg).2
    unfold glyphFilter at hf
    split_ifs at hf with h0
    exact h0
  refine ⟨?_, ?_, ?_⟩
  · intro g
    rw [keptGlyphs, List.mem_filter]
    constructor
    · rintro ⟨hg, hf⟩
      unfold glyphFilter at hf
      split_ifs at hf with h0
      exact ⟨hg, h0, hf⟩
    · rintro ⟨hg, h0, hal⟩
      refine ⟨hg, ?_⟩
      unfold glyphFilter
      rw [if_neg h0]
      exact hal
  · have hfold : ∀ (l : List Glyph), (∀ g ∈ l, g.unicode ≠ 0) →
        ∀ (acc : List (Nat × Str)),
        l.foldl (fun m g =>
            if g.unicode ≠ 0 then m ++ [(g.unicode, g.name)] else m) acc
          = acc ++ l.map (fun g => (g.unicode, g.name)) := by
      intro l
      induction l with
      | nil =>
        intro _ acc
        simp
      | cons g l ih =>
        intro hni acc
        simp only [List.foldl_cons]
        rw [if_pos (hni g (List.mem_cons_self g l)),
          ih (fun x hx => hni x (List.mem_cons_of_mem g hx))]
        simp [List.append_assoc]
    unfold rebuildCmap
    rw [hfold (keptGlyphs glyf) hkept0 []]
    simp [List.map_map, Function.comp_def]
  · intro g hg hu
    rw [keptGlyphs, List.mem_filter]
    refine ⟨hg, ?_⟩
    unfold glyphFilter
    rw [hu]
    decide

/-- Witness for the amended C8 claim: a Latin glyph and the đồng-sign glyph
are kept, a CJK glyph is dropped. -/
theorem c8_glyph_filtering_witness :
    keptGlyphs [⟨0x41, "A".data⟩, ⟨0x4E00, "cjk".data⟩, ⟨0x20AB, "dong".data⟩]
      = [⟨0x41, "A".data⟩, ⟨0x20AB, "dong".data⟩]
    ∧ (⟨0x20AB, "dong".data⟩ : Glyph) ∈ keptGlyphs
        [⟨0x41, "A".data⟩, ⟨0x4E00, "cjk".data⟩, ⟨0x20AB, "dong".data⟩] := by
  have h := c8_glyph_filtering
    [⟨0x41, "A".data⟩, ⟨0x4E00, "cjk".data⟩, ⟨0x20AB, "dong".data⟩]
  exact ⟨by decide, h.2.2 _ (by decide) (by decide)⟩

end FontConverter

/-! Generic facts about prefixes, suffixes and infixes of character lists,
used by the text-rewriting proofs. -/

theorem isPrefixOfIff (l₁ l₂ : Str) : l₁.isPrefixOf l₂ = true ↔ l₁ <+: l₂ :=
  List.isPrefixOf_iff_prefix

theorem prefixEqAppend (l₁ l₂ : Str) :
    l₁ <+: l₂ ↔ l₁ ++ l₂.drop l₁.length = l₂ :=
  List.prefix_iff_eq_append

theorem infixConsIff (p : Str) (c : Char) (l : Str) :
    p <:+: c :: l ↔ p <+: c :: l ∨ p <:+: l := by
  constructor
  · rintro ⟨u, v, huv⟩
    cases u with
    | nil => exact Or.inl ⟨v, by simpa using huv⟩
    | cons u0 u' =>
      have h2 : u' ++ p ++ v = l := by simpa using congrArg List.tail huv
      exact Or.inr ⟨u', v, h2⟩
  · rintro (⟨v, hv⟩ | ⟨u, v, huv⟩)
    · exact ⟨[], v, hv⟩
    · exact ⟨c :: u, v, by rw [List.cons_append, List.cons_append, huv]⟩

theorem prefixAppendCases (p l r : Str) (h : p <+: l ++ r) :
    p <+: l ∨ ∃ t, p = l ++ t ∧ t <+: r := by
  induction l generalizing p with
  | nil => exact Or.inr ⟨p, rfl, by simpa using h⟩
  | cons c l' ih =>
    cases p with
    | nil => exact Or.inl (List.nil_prefix)
    | cons p0 p' =>
      obtain ⟨v, hv⟩ := h
      simp only [List.cons_append] at hv
      injection hv with h1 h2
      subst h1
      rcases ih p' ⟨v, h2⟩ with h' | ⟨t, ht, htr⟩
      · obtain ⟨w, hw⟩ := h'
        exact Or.inl ⟨w, by rw [List.cons_append, hw]⟩
      · exact Or.inr ⟨t, by rw [ht, List.cons_append], htr⟩

theorem infixAppendSplit (p l r : Str) (h : p <:+: l ++ r) :
    p <:+: l ∨ p <:+: r
      ∨ ∃ s t, p = s ++ t ∧ s ≠ [] ∧ t ≠ [] ∧ s <:+ l ∧ t <+: r := by
  induction l generalizing p with
  | nil => exact Or.inr (Or.inl (by simpa using h))
  | cons c l' ih =>
    rw [List.cons_append] at h
    rcases (infixConsIff p c (l' ++ r)).mp h with hpre | hinf
    · cases p with
      | nil => exact Or.inl ⟨[], c :: l', rfl⟩
      | cons p0 p' =>
        obtain ⟨v, hv⟩ := hpre
        simp only [List.cons_append] at hv
        injection hv with h1 h2
        subst h1
        rcases prefixAppendCases p' l' r ⟨v, h2⟩ with h' | ⟨t, ht, htr⟩
        · left
          obtain ⟨w, hw⟩ := h'
          exact ⟨[], w, by simp [hw]⟩
        · cases t with
          | nil =>
            left
            rw [List.append_nil] at ht
            exact ⟨[], [], by simp [ht]⟩
          | cons t0 t' =>
            right; right
            exact ⟨p0 :: l', t0 :: t', by simp [ht], by simp, by simp,
              List.suffix_refl _, htr⟩
    · rcases ih p hinf with h' | h' | ⟨s, t, h1, h2, h3, h4, h5⟩
      · left
        obtain ⟨u, v, huv⟩ := h'
        exact ⟨c :: u, v, by rw [← huv]; simp⟩
      · exact Or.inr (Or.inl h')
      · right; right
        refine ⟨s, t, h1, h2, h3, ?_, h5⟩
        obtain ⟨u, hu⟩ := h4
        exact ⟨c :: u, by rw [List.cons_append, hu]⟩

theorem includesStrSpec : ∀ (s pat : Str), includesStr s pat = true ↔ pat <:+: s
  | [], pat => by
    rw [show includesStr [] pat = pat.isEmpty from rfl]
    constructor
    · intro h
      have hp : pat = [] := by
        cases pat with
        | nil => rfl
        | cons a l => simp [List.isEmpty] at h
      rw [hp]
    · rintro ⟨u, v, huv⟩
      have hp : pat = [] := by
        cases pat with
        | nil => rfl
        | cons a l => simp at huv
      simp [hp, List.isEmpty]
  | c :: rest, pat => by
    rw [show includesStr (c :: rest) pat
      = (pat.isPrefixOf (c :: rest) || includesStr rest pat) from rfl]
    rw [Bool.or_eq_true, isPrefixOfIff, includesStrSpec rest pat, infixConsIff]

namespace FileProcessor

theorem replaceAll_nil (old new : Str) : replaceAll old new [] = [] := by
  simp [replaceAll]

theorem replaceAll_cons_pos (old new : Str) (c : Char) (rest : Str)
    (h : old ≠ [] ∧ old.isPrefixOf (c :: rest) = true) :
    replaceAll old new (c :: rest)
      = new ++ replaceAll old new ((c :: rest).drop old.length) := by
  rw [replaceAll]
  rw [dif_pos h]

theorem replaceAll_cons_neg (old new : Str) (c : Char) (rest : Str)
    (h : ¬ (old ≠ [] ∧ old.isPrefixOf (c :: rest) = true)) :
    replaceAll old new (c :: rest) = c :: replaceAll old new rest := by
  rw [replaceAll]
  rw [dif_neg h]

theorem splitOnSub_nil (old : Str) : splitOnSub old [] = [[]] := by
  simp [splitOnSub]

theorem splitOnSub_cons_pos (old : Str) (c : Char) (rest : Str)
    (h : old ≠ [] ∧ old.isPrefixOf (c :: rest) = true) :
    splitOnSub old (c :: rest)
      = [] :: splitOnSub old ((c :: rest).drop old.length) := by
  rw [splitOnSub]
  rw [dif_pos h]

theorem splitOnSub_cons_neg (old : Str) (c : Char) (rest : Str)
    (h : ¬ (old ≠ [] ∧ old.isPrefixOf (c :: rest) = true)) :
    splitOnSub old (c :: rest)
      = match splitOnSub old rest with
        | [] => [[c]]
        | p :: ps => (c :: p) :: ps := by
  rw [splitOnSub]
  rw [dif_neg h]

theorem splitOnSub_ne_nil (old : Str) : ∀ s, splitOnSub old s ≠ [] := by
  intro s
  induction s using splitOnSub.induct old with
  | case1 => rw [splitOnSub_nil]; simp
  | case2 c rest h ih => rw [splitOnSub_cons_pos old c rest h]; simp
  | case3 c rest h he ih =>
    rw [splitOnSub_cons_neg old c rest h, he]
    simp
  | case4 c rest h p ps he ih =>
    rw [splitOnSub_cons_neg old c rest h, he]
    simp

theorem splitOnSubHead (old : Str) :
    ∀ s, ∃ p ps, splitOnSub old s = p :: ps ∧ p <+: s := by
  intro s
  induction s using splitOnSub.induct old with
  | case1 =>
    rw [splitOnSub_nil]
    exact ⟨[], [], rfl, List.nil_prefix⟩
  | case2 c rest h ih =>
    rw [splitOnSub_cons_pos old c rest h]
    exact ⟨[], _, rfl, List.nil_prefix⟩
  | case3 c rest h he ih =>
    exact absurd he (splitOnSub_ne_nil old rest)
  | case4 c rest h p ps he ih =>
    obtain ⟨p', ps', he', hpre⟩ := ih
    rw [splitOnSub_cons_neg old c rest h, he']
    obtain ⟨w, hw⟩ := hpre
    exact ⟨c :: p', ps', rfl, ⟨w, by rw [List.cons_append, hw]⟩⟩

end FileProcessor

theorem intercalateSingle (sep a : Str) : List.intercalate sep [a] = a := by
  simp [List.intercalate]

theorem intercalateConsCons (sep a b : Str) (ps : List Str) :
    List.intercalate sep (a :: b :: ps)
      = a ++ sep ++ List.intercalate sep (b :: ps) := by
  simp [List.intercalate, List.intersperse_cons_cons, List.flatten_cons,
    List.append_assoc]

theorem intercalateConsHead (sep : Str) (c : Char) (q : Str) (qs : List Str) :
    List.intercalate sep ((c :: q) :: qs)
      = c :: List.intercalate sep (q :: qs) := by
  cases qs with
  | nil => rw [intercalateSingle, intercalateSingle]
  | cons b ps =>
    rw [intercalateConsCons, intercalateConsCons]
    simp [List.cons_append]

theorem intercalateContains (sep p q : Str) (ps : List Str) :
    sep <:+: List.intercalate sep (p :: q :: ps) := by
  rw [intercalateConsCons]
  exact ⟨p, List.intercalate sep (q :: ps), by simp [List.append_assoc]⟩

namespace FileProcessor

theorem splitOnSub_intercalate (old : Str) :
    ∀ s, List.intercalate old (splitOnSub old s) = s := by
  intro s
  induction s using splitOnSub.induct old with
  | case1 => rw [splitOnSub_nil, intercalateSingle]
  | case2 c rest h ih =>
    rw [splitOnSub_cons_pos old c rest h]
    obtain ⟨p, ps, he, -⟩ := splitOnSubHead old ((c :: rest).drop old.length)
    rw [he] at ih ⊢
    rw [intercalateConsCons, List.nil_append, ih]
    exact (prefixEqAppend old (c :: rest)).mp ((isPrefixOfIff _ _).mp h.2)
  | case3 c rest h he ih => exact absurd he (splitOnSub_ne_nil old rest)
  | case4 c rest h p ps he ih =>
    rw [splitOnSub_cons_neg old c rest h, he]
    rw [he] at ih
    show List.intercalate old ((c :: p) :: ps) = c :: rest
    rw [intercalateConsHead, ih]

theorem replaceAll_intercalate (old new : Str) :
    ∀ s, replaceAll old new s = List.intercalate new (splitOnSub old s) := by
  intro s
  induction s using splitOnSub.induct old with
  | case1 => rw [splitOnSub_nil, replaceAll_nil, intercalateSingle]
  | case2 c rest h ih =>
    rw [splitOnSub_cons_pos old c rest h, replaceAll_cons_pos old new c rest h]
    obtain ⟨p, ps, he, -⟩ := splitOnSubHead old ((c :: rest).drop old.length)
    rw [he] at ih ⊢
    rw [intercalateConsCons, List.nil_append, ih]
  | case3 c rest h he ih => exact absurd he (splitOnSub_ne_nil old rest)
  | case4 c rest h p ps he ih =>
    rw [replaceAll_cons_neg old new c rest h, splitOnSub_cons_neg old c rest h, he]
    rw [he] at ih
    show c :: replaceAll old new rest = List.intercalate new ((c :: p) :: ps)
    rw [intercalateConsHead, ih]

theorem splitOnSub_no_occ (old : Str) (hne : old ≠ []) :
    ∀ s, ∀ p ∈ splitOnSub old s, includesStr p old = false := by
  intro s
  induction s using splitOnSub.induct old with
  | case1 =>
    rw [splitOnSub_nil]
    intro p hp
    simp only [List.mem_singleton] at hp
    subst hp
    show old.isEmpty = false
    cases old with
    | nil => exact absurd rfl hne
    | cons a l => rfl
  | case2 c rest h ih =>
    rw [splitOnSub_cons_pos old c rest h]
    intro p hp
    rcases List.mem_cons.mp hp with rfl | hp'
    · show old.isEmpty = false
      cases old with
      | nil => exact absurd rfl hne
      | cons a l => rfl
    · exact ih p hp'
  | case3 c rest h he ih => exact absurd he (splitOnSub_ne_nil old rest)
  | case4 c rest h p ps he ih =>
    rw [splitOnSub_cons_neg old c rest h, he]
    intro q hq
    have hq' : q ∈ (c :: p) :: ps := hq
    rcases List.mem_cons.mp hq' with rfl | hq''
    · show (old.isPrefixOf (c :: p) || includesStr p old) = false
      have hp_mem : p ∈ splitOnSub old rest := by
        rw [he]
        exact List.mem_cons_self _ _
      rw [ih p hp_mem, Bool.or_false]
      have hnp : ¬ old.isPrefixOf (c :: rest) = true := fun hh => h ⟨hne, hh⟩
      obtain ⟨p', ps', he', hpre⟩ := splitOnSubHead old rest
      have hee := he.symm.trans he'
      injection hee with e1 e2
      subst e1
      by_contra hb
      rw [Bool.not_eq_false] at hb
      have hpp : old <+: c :: p := (isPrefixOfIff _ _).mp hb
      obtain ⟨w, hw⟩ := hpre
      have hcp : (c :: p) <+: c :: rest := ⟨w, by rw [List.cons_append, hw]⟩
      exact hnp ((isPrefixOfIff _ _).mpr (hpp.trans hcp))
    · exact ih q (by rw [he]; exact List.mem_cons_of_mem _ hq'')

theorem splitOnSub_two (old : Str) (hne : old ≠ []) :
    ∀ s, includesStr s old = true → ∃ p q ps, splitOnSub old s = p :: q :: ps := by
  intro s
  induction s using splitOnSub.induct old with
  | case1 =>
    intro hin
    exfalso
    have hemp : old.isEmpty = true := hin
    cases old with
    | nil => exact hne rfl
    | cons a l => simp [List.isEmpty] at hemp
  | case2 c rest h ih =>
    intro _
    rw [splitOnSub_cons_pos old c rest h]
    obtain ⟨p, ps, he, -⟩ := splitOnSubHead old ((c :: rest).drop old.length)
    exact ⟨[], p, ps, by rw [he]⟩
  | case3 c rest h he ih => exact absurd he (splitOnSub_ne_nil old rest)
  | case4 c rest h p ps he ih =>
    intro hin
    have hrest : includesStr rest old = true := by
      have hor : (old.isPrefixOf (c :: rest) || includesStr rest old) = true := hin
      rcases Bool.or_eq_true_iff.mp hor with h' | h'
      · exact absurd ⟨hne, h'⟩ h
      · exact h'
    obtain ⟨p₁, q₁, ps₁, he₁⟩ := ih hrest
    have hee := he.symm.trans he₁
    injection hee with e1 e2
    rw [splitOnSub_cons_neg old c rest h, he]
    refine ⟨c :: p, q₁, ps₁, ?_⟩
    show (c :: p) :: ps = (c :: p) :: q₁ :: ps₁
    rw [e2]

end FileProcessor

/-! Further generic prefix/suffix facts for the CSS scanner proofs. -/

theorem suffixAppendCases (a l r : Str) (h : a <:+ l ++ r) :
    a <:+ r ∨ ∃ b, a = b ++ r ∧ b <:+ l := by
  have h' : a.reverse <+: r.reverse ++ l.reverse := by
    rw [← List.reverse_append]
    exact List.reverse_prefix.mpr h
  rcases prefixAppendCases a.reverse r.reverse l.reverse h' with h1 | ⟨t, ht, htl⟩
  · exact Or.inl (List.reverse_prefix.mp h1)
  · right
    refine ⟨t.reverse, ?_, ?_⟩
    · have h2 := congrArg List.reverse ht
      simpa [List.reverse_append] using h2
    · have h3 : t.reverse.reverse <+: l.reverse := by simpa using htl
      exact List.reverse_prefix.mp h3

theorem infixSingletonCases (p : Str) (c : Char) (h : p <:+: [c]) :
    p = [] ∨ p = [c] := by
  rcases h with ⟨u, v, huv⟩
  cases u with
  | nil =>
    cases p with
    | nil => exact Or.inl rfl
    | cons x xs =>
      right
      simp only [List.nil_append, List.cons_append] at huv
      injection huv with h1 h2
      subst h1
      rcases List.append_eq_nil.mp h2 with ⟨hx, -⟩
      rw [hx]
  | cons y ys =>
    left
    simp only [List.cons_append] at huv
    injection huv with h1 h2
    rcases List.append_eq_nil.mp h2 with ⟨h3, -⟩
    rcases List.append_eq_nil.mp h3 with ⟨-, h4⟩
    exact h4

theorem prefixConsCases (b : Str) (x : Char) (l : Str) (h : b <+: x :: l) :
    b = [] ∨ ∃ bs, b = x :: bs ∧ bs <+: l := by
  cases b with
  | nil => exact Or.inl rfl
  | cons y ys =>
    rcases List.cons_prefix_cons.mp h with ⟨h1, h2⟩
    exact Or.inr ⟨ys, by rw [h1], h2⟩

theorem takeSubAppend (r s : Str) (h : r <:+ s) :
    s.take (s.length - r.length) ++ r = s := by
  obtain ⟨u, hu⟩ := h
  subst hu
  rw [List.length_append, Nat.add_sub_cancel, List.take_left]

namespace CSSFontUpdater

/-! Unfolding equations for the fuel-based scanners (all definitional). -/

theorem rftAux_zero (s : Str) : replaceFormatTokensAux 0 s = s := rfl

theorem rftAux_nil (fuel : Nat) : replaceFormatTokensAux (fuel + 1) [] = [] := rfl

theorem rftAux_cons (fuel : Nat) (c : Char) (rest : Str) :
    replaceFormatTokensAux (fuel + 1) (c :: rest)
      = match matchFormatToken (c :: rest) with
        | some r => woff2Token ++ replaceFormatTokensAux fuel r
        | none => c :: replaceFormatTokensAux fuel rest := rfl

theorem afhAux_zero (s : Str) : appendFormatHintsAux 0 s = s := rfl

theorem afhAux_nil (fuel : Nat) : appendFormatHintsAux (fuel + 1) [] = [] := rfl

theorem afhAux_cons (fuel : Nat) (c : Char) (rest : Str) :
    appendFormatHintsAux (fuel + 1) (c :: rest)
      = match matchFontFace (c :: rest) with
        | some (block, urlPath, r) =>
          rewriteBlock block urlPath ++ appendFormatHintsAux fuel r
        | none => c :: appendFormatHintsAux fuel rest := rfl

theorem rus_nil : rewriteUrlSemi [] = [] := rfl

theorem rus_cons (c : Char) (rest : Str) :
    rewriteUrlSemi (c :: rest)
      = match matchUrlSemi (c :: rest) with
        | some (g1, r2) => g1 ++ hintIns ++ r2
        | none => c :: rewriteUrlSemi rest := rfl

theorem eatWordAlt_cons (w : Str) (ws : List Str) (s : Str) :
    eatWordAlt (w :: ws) s
      = match eatCi w s with
        | some rest =>
          match rest with
          | q :: rest2 => if isQuote q then some rest2 else eatWordAlt ws s
          | [] => eatWordAlt ws s
        | none => eatWordAlt ws s := rfl

/-! The scanners only move forward: every successful match leaves a suffix
of its input, and a strictly shorter one where the regex consumes text. -/

theorem eatCi_suffix : ∀ (l s r : Str), eatCi l s = some r → r <:+ s := by
  intro l
  induction l with
  | nil =>
    intro s r h
    have h' : some s = some r := h
    injection h' with h''
    subst h''
    exact List.suffix_refl _
  | cons x xs ih =>
    intro s r h
    cases s with
    | nil => exact absurd h (by simp [eatCi])
    | cons c cs =>
      have h' : (if c.toLower == x then eatCi xs cs else none) = some r := h
      by_cases hc : (c.toLower == x) = true
      · rw [if_pos hc] at h'
        exact (ih cs r h').trans (List.suffix_cons c cs)
      · rw [if_neg hc] at h'
        exact absurd h' (by simp)

theorem eatSpaces_suffix (s : Str) : eatSpaces s <:+ s :=
  List.dropWhile_suffix _

theorem eatWordAlt_shrink : ∀ (ws : List Str) (s r : Str),
    eatWordAlt ws s = some r → r.length < s.length := by
  intro ws
  induction ws with
  | nil => intro s r h; exact absurd h (by simp [eatWordAlt])
  | cons w wtl ih =>
    intro s r h
    rw [eatWordAlt_cons] at h
    cases he : eatCi w s with
    | none =>
      rw [he] at h
      exact ih s r h
    | some rest =>
      rw [he] at h
      cases rest with
      | nil => exact ih s r h
      | cons q rest2 =>
        have h1 : (if isQuote q then some rest2 else eatWordAlt wtl s) = some r := h
        by_cases hq : isQuote q = true
        · rw [if_pos hq] at h1
          injection h1 with h2
          have hsuf := (eatCi_suffix w s (q :: rest2) he).length_le
          simp only [List.length_cons] at hsuf
          subst h2
          omega
        · rw [if_neg hq] at h1
          exact ih s r h1

theorem mft_shrink (s r : Str) (h : matchFormatToken s = some r) :
    r.length < s.length := by
  unfold matchFormatToken at h
  split at h
  · exact absurd h (by simp)
  next s1 h1 =>
    have hs1 : s1.length ≤ s.length := (eatCi_suffix _ _ _ h1).length_le
    split at h
    next s3 h2 =>
      have hs3 : s3.length < s1.length := by
        have := h2 ▸ (eatSpaces_suffix s1).length_le
        simp only [List.length_cons] at this
        omega
      split at h
      next q s5 h3 =>
        split at h
        · split at h
          next s6 h4 =>
            have hs5 : s5.length < s3.length := by
              have := h3 ▸ (eatSpaces_suffix s3).length_le
              simp only [List.length_cons] at this
              omega
            have hs6 : s6.length < s5.length := eatWordAlt_shrink _ _ _ h4
            split at h
            next s8 h5 =>
              have hs8 : s8.length < s6.length := by
                have := h5 ▸ (eatSpaces_suffix s6).length_le
                simp only [List.length_cons] at this
                omega
              injection h with h6
              subst h6
              omega
            · exact absurd h (by simp)
          · exact absurd h (by simp)
        · exact absurd h (by simp)
      · exact absurd h (by simp)
    · exact absurd h (by simp)

theorem mus_decomp (s g1 r2 : Str) (h : matchUrlSemi s = some (g1, r2)) :
    g1 <+: s ∧ r2 <:+ s := by
  unfold matchUrlSemi at h
  split at h
  · exact absurd h (by simp)
  next t1 h1 =>
    split at h
    next t3 h2 =>
      simp only [] at h
      split at h
      · exact absurd h (by simp)
      · split at h
        next t4 h3 =>
          split at h
          next t6 h4 =>
            injection h with h5
            injection h5 with hg hr
            have a1 : t1 <:+ s := eatCi_suffix _ _ _ h1
            have a2 : ('(' :: t3) <:+ t1 := by
              rw [← h2]; exact eatSpaces_suffix t1
            have a3 : t3 <:+ s :=
              ((List.suffix_cons '(' t3).trans a2).trans a1
            have a4 : (')' :: t4) <:+ t3 := by
              rw [← h3]; exact List.drop_suffix _ _
            have a5 : t4 <:+ s :=
              ((List.suffix_cons ')' t4).trans a4).trans a3
            have a6 : (';' :: t6) <:+ t4 := by
              rw [← h4]; exact eatSpaces_suffix t4
            have a7 : t6 <:+ s :=
              ((List.suffix_cons ';' t6).trans a6).trans a5
            constructor
            · rw [← hg]; exact List.take_prefix _ _
            · rw [← hr]; exact a7
          · exact absurd h (by simp)
        · exact absurd h (by simp)
    · exact absurd h (by simp)

theorem mff_decomp (s block u r : Str) (h : matchFontFace s = some (block, u, r)) :
    block ++ r = s := by
  unfold matchFontFace at h
  split at h
  · exact absurd h (by simp)
  next t1 h1 =>
    split at h
    next b t3 h2 =>
      split at h
      · simp only [] at h
        split at h
        next hd restAfter h3 =>
          split at h
          next urlPath h4 =>
            injection h with h5
            injection h5 with hblock h6
            injection h6 with hu hr
            have a1 : t1 <:+ s := eatCi_suffix _ _ _ h1
            have a2 : (b :: t3) <:+ t1 := by
              rw [← h2]; exact List.dropWhile_suffix _
            have a3 : t3 <:+ s :=
              ((List.suffix_cons b t3).trans a2).trans a1
            have a4 : (hd :: restAfter) <:+ t3 := by
              rw [← h3]; exact List.drop_suffix _ _
            have a5 : restAfter <:+ s :=
              ((List.suffix_cons hd restAfter).trans a4).trans a3
            rw [← hblock, ← hr]
            exact takeSubAppend restAfter s a5
          · exact absurd h (by simp)
        · exact absurd h (by simp)
      · exact absurd h (by simp)
    · exact absurd h (by simp)

/-! Phase 1 of `updateFontFormats`: the global token replace removes every
occurrence of an exact legacy `format(...)` literal and introduces none.  The
scan invariant: no nonempty suffix of the emitted output is a prefix of the
literal whose missing part is still ahead in the raw input. -/

theorem rft_aux_safe (L : Str) (hne : L ≠ [])
    (hmc : ∀ t, matchFormatToken (L ++ t) = some t)
    (hSB : ∀ a ∈ woff2Token.tails, a = [] ∨ a.isPrefixOf L = false)
    (hSC : includesStr L woff2Token = false)
    (hSD : includesStr woff2Token L = false)
    (hSE : ∀ b ∈ woff2Token.inits, b = [] ∨ b.isSuffixOf L = false) :
    ∀ (fuel : Nat) (s C : Str), s.length ≤ fuel → ¬ L <:+: C →
      (∀ a b, a <:+ C → a ≠ [] → L = a ++ b → ¬ b <+: s) →
      ¬ L <:+: C ++ replaceFormatTokensAux fuel s := by
  intro fuel
  induction fuel with
  | zero =>
    intro s C hlen hC _
    have hs : s = [] := List.eq_nil_of_length_eq_zero (Nat.le_zero.mp hlen)
    subst hs
    rw [rftAux_zero]
    simpa using hC
  | succ fuel ih =>
    intro s C hlen hC hInv
    cases s with
    | nil =>
      rw [rftAux_nil]
      simpa using hC
    | cons c rest =>
      rw [rftAux_cons]
      cases hm : matchFormatToken (c :: rest) with
      | none =>
        show ¬ L <:+: C ++ (c :: replaceFormatTokensAux fuel rest)
        have key : ¬ L <:+: (C ++ [c]) ++ replaceFormatTokensAux fuel rest := by
          apply ih rest (C ++ [c])
          · simp only [List.length_cons] at hlen
            omega
          · intro hLin
            rcases infixAppendSplit L C [c] hLin with
              h1 | h1 | ⟨a, b, hab, hane, hbne, haC, hbc⟩
            · exact hC h1
            · rcases infixSingletonCases L c h1 with h2 | h2
              · exact hne h2
              · have hx := hmc rest
                rw [h2, List.singleton_append, hm] at hx
                exact Option.noConfusion hx
            · obtain ⟨w, hw⟩ := hbc
              cases b with
              | nil => exact hbne rfl
              | cons y ys =>
                simp only [List.cons_append] at hw
                injection hw with hy hys
                rcases List.append_eq_nil.mp hys with ⟨hys1, -⟩
                subst hys1
                rw [hy] at hab
                exact hInv a [c] haC hane hab ⟨rest, rfl⟩
          · intro a b haSuf hane hLab hbrest
            rcases suffixAppendCases a C [c] haSuf with h1 | ⟨a₀, ha₀, ha₀C⟩
            · have ha : a = [c] := by
                obtain ⟨w, hw⟩ := h1
                cases w with
                | nil => simpa using hw
                | cons y ys =>
                  simp only [List.cons_append] at hw
                  injection hw with hy hys
                  rcases List.append_eq_nil.mp hys with ⟨-, ha'⟩
                  exact absurd ha' hane
              subst ha
              obtain ⟨t, ht⟩ := hbrest
              have hx := hmc t
              rw [hLab, List.append_assoc, List.singleton_append, ht, hm] at hx
              exact Option.noConfusion hx
            · by_cases ha0 : a₀ = []
              · subst ha0
                simp only [List.nil_append] at ha₀
                subst ha₀
                obtain ⟨t, ht⟩ := hbrest
                have hx := hmc t
                rw [hLab, List.append_assoc, List.singleton_append, ht, hm] at hx
                exact Option.noConfusion hx
              · refine hInv a₀ ([c] ++ b) ha₀C ha0 ?_ ?_
                · rw [hLab, ha₀, List.append_assoc]
                · obtain ⟨t, ht⟩ := hbrest
                  exact ⟨t, by rw [List.append_assoc, List.singleton_append, ht]⟩
        intro hx
        exact key (by simpa [List.append_assoc] using hx)
      | some rest2 =>
        show ¬ L <:+: C ++ (woff2Token ++ replaceFormatTokensAux fuel rest2)
        have hlen2 : rest2.length ≤ fuel := by
          have h2 := mft_shrink (c :: rest) rest2 hm
          simp only [List.length_cons] at h2 hlen
          omega
        have key : ¬ L <:+: (C ++ woff2Token) ++ replaceFormatTokensAux fuel rest2 := by
          apply ih rest2 (C ++ woff2Token) hlen2
          · intro hLin
            rcases infixAppendSplit L C woff2Token hLin with
              h1 | h1 | ⟨a, b, hab, hane, hbne, haC, hbW⟩
            · exact hC h1
            · have h2 := (includesStrSpec woff2Token L).mpr h1
              rw [hSD] at h2
              exact Bool.noConfusion h2
            · have hbmem : b ∈ woff2Token.inits := (List.mem_inits _ _).mpr hbW
              rcases hSE b hbmem with h2 | h2
              · exact hbne h2
              · have h3 : b <:+ L := ⟨a, hab.symm⟩
                have h4 := List.isSuffixOf_iff_suffix.mpr h3
                rw [h2] at h4
                exact Bool.noConfusion h4
          · intro a b haSuf hane hLab _
            rcases suffixAppendCases a C woff2Token haSuf with h1 | ⟨a₀, ha₀, ha₀C⟩
            · have hamem : a ∈ woff2Token.tails := (List.mem_tails _ _).mpr h1
              rcases hSB a hamem with h2 | h2
              · exact hane h2
              · have h3 : a <+: L := ⟨b, hLab.symm⟩
                have h4 := (isPrefixOfIff a L).mpr h3
                rw [h2] at h4
                exact Bool.noConfusion h4
            · by_cases ha0 : a₀ = []
              · subst ha0
                simp only [List.nil_append] at ha₀
                have hamem : woff2Token ∈ woff2Token.tails :=
                  (List.mem_tails _ _).mpr (List.suffix_refl _)
                rcases hSB _ hamem with h2 | h2
                · exact absurd h2 (by decide)
                · have h3 : woff2Token <+: L := ⟨b, by rw [← ha₀, ← hLab]⟩
                  have h4 := (isPrefixOfIff _ L).mpr h3
                  rw [h2] at h4
                  exact Bool.noConfusion h4
              · have h3 : woff2Token <:+: L := ⟨a₀, b, by rw [← ha₀, ← hLab]⟩
                have h4 := (includesStrSpec L woff2Token).mpr h3
                rw [hSC] at h4
                exact Bool.noConfusion h4
        intro hx
        exact key (by simpa [List.append_assoc] using hx)

theorem rft_safe (L : Str) (hne : L ≠ [])
    (hmc : ∀ t, matchFormatToken (L ++ t) = some t)
    (hSB : ∀ a ∈ woff2Token.tails, a = [] ∨ a.isPrefixOf L = false)
    (hSC : includesStr L woff2Token = false)
    (hSD : includesStr woff2Token L = false)
    (hSE : ∀ b ∈ woff2Token.inits, b = [] ∨ b.isSuffixOf L = false)
    (s : Str) : ¬ L <:+: replaceFormatTokens s := by
  have h := rft_aux_safe L hne hmc hSB hSC hSD hSE s.length s [] le_rfl
    (fun hin => by
      obtain ⟨u, v, huv⟩ := hin
      rcases List.append_eq_nil.mp huv with ⟨h1, -⟩
      rcases List.append_eq_nil.mp h1 with ⟨-, h2⟩
      exact hne h2)
    (fun a b ha hane _ => by
      obtain ⟨w, hw⟩ := ha
      rcases List.append_eq_nil.mp hw with ⟨-, h2⟩
      exact absurd h2 hane)
  simpa [replaceFormatTokens] using h

/-! Phase 2 of `updateFontFormats`: the font-face scan only copies input text
and inserts `hintIns`, so it cannot introduce an occurrence of a legacy
format literal into a text that had none. -/

theorem rus_safe (L : Str)
    (hWs : ∀ c ∈ L, c.isWhitespace = false)
    (hSF : ∀ a ∈ hintIns.tails, a = [] ∨ a.isPrefixOf L = false)
    (hSG : includesStr hintIns L = false) :
    ∀ (b C D : Str), ¬ L <:+: C ++ (b ++ D) →
      ¬ L <:+: C ++ (rewriteUrlSemi b ++ D) := by
  intro b
  induction b with
  | nil =>
    intro C D h
    rw [rus_nil]
    exact h
  | cons c rest ihb =>
    intro C D h
    rw [rus_cons]
    cases hm : matchUrlSemi (c :: rest) with
    | none =>
      show ¬ L <:+: C ++ ((c :: rewriteUrlSemi rest) ++ D)
      have h' : ¬ L <:+: (C ++ [c]) ++ (rest ++ D) := by
        intro hx
        exact h (by simpa [List.append_assoc] using hx)
      have h2 := ihb (C ++ [c]) D h'
      intro hx
      exact h2 (by simpa [List.append_assoc] using hx)
    | some pr =>
      obtain ⟨g1, r2⟩ := pr
      show ¬ L <:+: C ++ ((g1 ++ hintIns ++ r2) ++ D)
      obtain ⟨hg1, hr2⟩ := mus_decomp (c :: rest) g1 r2 hm
      intro hx
      have hx' : L <:+: (C ++ g1) ++ (hintIns ++ (r2 ++ D)) := by
        simpa [List.append_assoc] using hx
      have hApre : (C ++ g1) <+: C ++ ((c :: rest) ++ D) := by
        obtain ⟨w, hw⟩ := hg1
        exact ⟨w ++ D, by rw [List.append_assoc, ← List.append_assoc g1, hw]⟩
      have hBsuf : (r2 ++ D) <:+ C ++ ((c :: rest) ++ D) := by
        obtain ⟨u, hu⟩ := hr2
        exact ⟨C ++ u, by rw [List.append_assoc, ← List.append_assoc u, hu]⟩
      rcases infixAppendSplit L (C ++ g1) (hintIns ++ (r2 ++ D)) hx' with
        h1 | h1 | ⟨a, bb, hab, hane, hbne, haA, hbI⟩
      · exact h (h1.trans hApre.isInfix)
      · rcases infixAppendSplit L hintIns (r2 ++ D) h1 with
          h2 | h2 | ⟨a, bb, hab, hane, hbne, haI, hbB⟩
        · have h3 := (includesStrSpec hintIns L).mpr h2
          rw [hSG] at h3
          exact Bool.noConfusion h3
        · exact h (h2.trans hBsuf.isInfix)
        · have hamem : a ∈ hintIns.tails := (List.mem_tails _ _).mpr haI
          rcases hSF a hamem with h3 | h3
          · exact hane h3
          · have h4 : a <+: L := ⟨bb, hab.symm⟩
            have h5 := (isPrefixOfIff a L).mpr h4
            rw [h3] at h5
            exact Bool.noConfusion h5
      · cases bb with
        | nil => exact hbne rfl
        | cons x xs =>
          have hcons : hintIns ++ (r2 ++ D)
              = ' ' :: ("format(\"woff2\");".data ++ (r2 ++ D)) := rfl
          rw [hcons] at hbI
          rcases List.cons_prefix_cons.mp hbI with ⟨hx0, -⟩
          subst hx0
          have hmem : ' ' ∈ L := by
            rw [hab]
            exact List.mem_append_right a (List.mem_cons_self _ _)
          have h5 := hWs ' ' hmem
          exact absurd h5 (by decide)

theorem afh_aux_safe (L : Str)
    (hWs : ∀ c ∈ L, c.isWhitespace = false)
    (hSF : ∀ a ∈ hintIns.tails, a = [] ∨ a.isPrefixOf L = false)
    (hSG : includesStr hintIns L = false) :
    ∀ (fuel : Nat) (s C : Str), ¬ L <:+: C ++ s →
      ¬ L <:+: C ++ appendFormatHintsAux fuel s := by
  intro fuel
  induction fuel with
  | zero =>
    intro s C h
    rw [afhAux_zero]
    exact h
  | succ fuel ih =>
    intro s C h
    cases s with
    | nil =>
      rw [afhAux_nil]
      exact h
    | cons c rest =>
      rw [afhAux_cons]
      cases hm : matchFontFace (c :: rest) with
      | none =>
        show ¬ L <:+: C ++ (c :: appendFormatHintsAux fuel rest)
        have h2 := ih rest (C ++ [c]) (by
          intro hx
          exact h (by simpa [List.append_assoc] using hx))
        intro hx
        exact h2 (by simpa [List.append_assoc] using hx)
      | some tpl =>
        obtain ⟨block, urlPath, rest2⟩ := tpl
        show ¬ L <:+: C ++
          (rewriteBlock block urlPath ++ appendFormatHintsAux fuel rest2)
        have hdec : block ++ rest2 = c :: rest := mff_decomp _ _ _ _ hm
        have hrb : rewriteBlock block urlPath = rewriteUrlSemi block
            ∨ rewriteBlock block urlPath = block := by
          unfold rewriteBlock
          by_cases hcond : (includesStr urlPath ".woff2".data
              && !includesStr block "format(".data) = true
          · rw [if_pos hcond]; exact Or.inl rfl
          · rw [if_neg hcond]; exact Or.inr rfl
        have hkey : ¬ L <:+: (C ++ rewriteBlock block urlPath) ++ rest2 := by
          rcases hrb with hrb | hrb
          · rw [hrb]
            have h3 : ¬ L <:+: C ++ (block ++ rest2) := by
              rw [hdec]; exact h
            have h4 := rus_safe L hWs hSF hSG block C rest2 h3
            intro hx
            exact h4 (by simpa [List.append_assoc] using hx)
          · rw [hrb]
            intro hx
            apply h
            rw [← hdec]
            simpa [List.append_assoc] using hx
        have h5 := ih rest2 (C ++ rewriteBlock block urlPath) hkey
        intro hx
        exact h5 (by simpa [List.append_assoc] using hx)

theorem afh_safe (L : Str)
    (hWs : ∀ c ∈ L, c.isWhitespace = false)
    (hSF : ∀ a ∈ hintIns.tails, a = [] ∨ a.isPrefixOf L = false)
    (hSG : includesStr hintIns L = false)
    (s : Str) (h : ¬ L <:+: s) : ¬ L <:+: appendFormatHints s := by
  have h2 := afh_aux_safe L hWs hSF hSG s.length s [] (by simpa using h)
  simpa [appendFormatHints] using h2

/-- Combined: after `updateFontFormats` no exact legacy format literal
occurs anywhere in the file, whatever the input text. -/
theorem updateFontFormats_noToken (L : Str) (hne : L ≠ [])
    (hmc : ∀ t, matchFormatToken (L ++ t) = some t)
    (hSB : ∀ a ∈ woff2Token.tails, a = [] ∨ a.isPrefixOf L = false)
    (hSC : includesStr L woff2Token = false)
    (hSD : includesStr woff2Token L = false)
    (hSE : ∀ b ∈ woff2Token.inits, b = [] ∨ b.isSuffixOf L = false)
    (hWs : ∀ c ∈ L, c.isWhitespace = false)
    (hSF : ∀ a ∈ hintIns.tails, a = [] ∨ a.isPrefixOf L = false)
    (hSG : includesStr hintIns L = false)
    (s : Str) : ¬ L <:+: updateFontFormats s := by
  unfold updateFontFormats
  exact afh_safe L hWs hSF hSG _ (rft_safe L hne hmc hSB hSC hSD hSE s)

/-- The side conditions hold for each of the eight exact-case legacy
`format(...)` literals. -/
theorem legacy_noToken (L : Str) (hL : L ∈ legacyFormatTokens) (s : Str) :
    ¬ L <:+: updateFontFormats s := by
  simp only [legacyFormatTokens, List.mem_cons, List.mem_singleton,
    List.not_mem_nil, or_false] at hL
  rcases hL with rfl | rfl | rfl | rfl | rfl | rfl | rfl | rfl
  all_goals refine updateFontFormats_noToken _ ?_ ?_ ?_ ?_ ?_ ?_ ?_ ?_ ?_ s
  all_goals first
    | exact fun t => rfl
    | decide

/-- C6: the `fontA.ttf → fontA.woff2` round-trip.  For every stylesheet (or
other text asset) that contains the old portable reference: the
literal-substitution pass (`FileProcessor.updateSingleFileReferences`)
replaces every exact occurrence of `fontA.ttf` with `fontA.woff2` — the
output is the interleaving of the occurrence-free fragments of the text with
the new reference; the CSS pass (`CSSFontUpdater.updateSingleCssFile`)
performs the same substitution and then runs the format normalization, and no
`format("truetype")` token remains anywhere in the resulting file —
in particular in no touched font-face block. -/
theorem c6_font_reference_roundtrip (content : Str)
    (h : includesStr content fontATtf = true) :
    FileProcessor.updateSingleFileReferences content fontATtf fontAWoff2
        = List.intercalate fontAWoff2 (FileProcessor.splitOnSub fontATtf content)
    ∧ (∀ p ∈ FileProcessor.splitOnSub fontATtf content,
        includesStr p fontATtf = false)
    ∧ updateSingleCssFile content fontATtf fontAWoff2
        = updateFontFormats (FileProcessor.replaceAll fontATtf fontAWoff2 content)
    ∧ ¬ formatTruetype <:+: updateSingleCssFile content fontATtf fontAWoff2 := by
  have hne : fontATtf ≠ [] := by decide
  have hfrag := FileProcessor.splitOnSub_no_occ fontATtf hne content
  have hfact := FileProcessor.replaceAll_intercalate fontATtf fontAWoff2 content
  have hupd : FileProcessor.updateSingleFileReferences content fontATtf fontAWoff2
      = FileProcessor.replaceAll fontATtf fontAWoff2 content := by
    simp [FileProcessor.updateSingleFileReferences, h]
  obtain ⟨p, q, ps, hpq⟩ := FileProcessor.splitOnSub_two fontATtf hne content h
  have hinf : fontAWoff2 <:+: FileProcessor.replaceAll fontATtf fontAWoff2 content := by
    rw [hfact, hpq]
    exact intercalateContains fontAWoff2 p q ps
  have hinc : includesStr
      (FileProcessor.replaceAll fontATtf fontAWoff2 content) fontAWoff2 = true :=
    (includesStrSpec _ _).mpr hinf
  have hcss : updateSingleCssFile content fontATtf fontAWoff2
      = updateFontFormats (FileProcessor.replaceAll fontATtf fontAWoff2 content) := by
    simp [updateSingleCssFile, h, hinc]
  refine ⟨?_, hfrag, hcss, ?_⟩
  · rw [hupd, hfact]
  · rw [hcss]
    exact legacy_noToken formatTruetype (by decide) _

/-- Witness for C6 at a concrete stylesheet containing the old reference and
a legacy format token. -/
theorem c6_font_reference_roundtrip_witness :
    includesStr "src: url(\"fontA.ttf\") format(\"truetype\");".data fontATtf = true
    ∧ (FileProcessor.updateSingleFileReferences
          "src: url(\"fontA.ttf\") format(\"truetype\");".data fontATtf fontAWoff2
        = List.intercalate fontAWoff2
            (FileProcessor.splitOnSub fontATtf
              "src: url(\"fontA.ttf\") format(\"truetype\");".data)
      ∧ (∀ p ∈ FileProcessor.splitOnSub fontATtf
            "src: url(\"fontA.ttf\") format(\"truetype\");".data,
          includesStr p fontATtf = false)
      ∧ updateSingleCssFile "src: url(\"fontA.ttf\") format(\"truetype\");".data
            fontATtf fontAWoff2
          = updateFontFormats (FileProcessor.replaceAll fontATtf fontAWoff2
              "src: url(\"fontA.ttf\") format(\"truetype\");".data)
      ∧ ¬ formatTruetype <:+:
          updateSingleCssFile "src: url(\"fontA.ttf\") format(\"truetype\");".data
            fontATtf fontAWoff2) :=
  ⟨by decide, c6_font_reference_roundtrip _ (by decide)⟩

/-- C7 counterexample: a style file with NO font-face block at all, whose
only connection to the converted font is an unrelated mention of the new
reference, still has its `format("truetype")` token rewritten to
`format("woff2")` — the token rewrite is file-global, not scoped to
font-face blocks whose URL points at the converted font. -/
theorem c7_counterexample :
    includesStr "format(\"truetype\") fontA.woff2".data "@font-face".data = false
    ∧ includesStr "format(\"truetype\") fontA.woff2".data formatTruetype = true
    ∧ updateSingleCssFile "format(\"truetype\") fontA.woff2".data
        fontATtf fontAWoff2
        = "format(\"woff2\") fontA.woff2".data := by decide

/-- C7 amended: font-format token rewriting is NOT scoped to the enclosing
font-face block.  Whenever the style file processed by the css updater
mentions the new reference after literal substitution (the condition under
which the normalization runs at all), every exact legacy format token —
truetype, opentype, ttf or otf, single- or double-quoted — is removed from
the ENTIRE file, inside and outside font-face blocks alike; only the
hint-appending phase is scoped to font-face blocks. -/
theorem c7_format_rewrite_unscoped (content oldRef newRef L : Str)
    (hL : L ∈ legacyFormatTokens)
    (htouch : includesStr
        (if includesStr content oldRef then
          FileProcessor.replaceAll oldRef newRef content
         else content) newRef = true) :
    ¬ L <:+: updateSingleCssFile content oldRef newRef := by
  have hstep : updateSingleCssFile content oldRef newRef
      = updateFontFormats (if includesStr content oldRef then
          FileProcessor.replaceAll oldRef newRef content
        else content) := by
    show (if includesStr
        (if includesStr content oldRef then
          FileProcessor.replaceAll oldRef newRef content
         else content) newRef then
        updateFontFormats (if includesStr content oldRef then
          FileProcessor.replaceAll oldRef newRef content
         else content)
      else (if includesStr content oldRef then
          FileProcessor.replaceAll oldRef newRef content
         else content)) = _
    rw [htouch]
    simp
  rw [hstep]
  exact legacy_noToken L hL _

/-- Witness for the amended C7 claim: the double-quoted truetype token and
the counterexample file, which mentions the new reference without containing
the old one. -/
theorem c7_format_rewrite_unscoped_witness :
    (formatTruetype ∈ legacyFormatTokens
      ∧ includesStr
          (if includesStr "format(\"truetype\") fontA.woff2".data fontATtf then
            FileProcessor.replaceAll fontATtf fontAWoff2
              "format(\"truetype\") fontA.woff2".data
           else "format(\"truetype\") fontA.woff2".data) fontAWoff2 = true)
    ∧ ¬ formatTruetype <:+:
        updateSingleCssFile "format(\"truetype\") fontA.woff2".data
          fontATtf fontAWoff2 :=
  ⟨⟨by decide, by decide⟩,
    c7_format_rewrite_unscoped _ _ _ _ (by decide) (by decide)⟩

end CSSFontUpdater

end SiteOptimizer
